import Mathlib

/-!
Verification development for the Hygraph content-source client.

The definitions in this file are a shallow embedding of the TypeScript
source of the repository:

* `convertFieldsToQueryAST`, `aliasForFieldName`, `aliasEntries`,
  `referenceBranches` embed the query-AST compiler of
  `hygraph-api-client` (the function `convertFieldsToQueryAST` and the
  helpers it uses);
* `getEntries` / `getEntriesGo` embed the paginated fetch loop of
  `HygraphApiClient.getEntries`;
* `isNewerVersion` / `reconcile` embed the webhook reconciliation loop of
  `HygraphContentSource.onWebhook`;
* `serializeQueryArgValue` embeds the GraphQL argument serializer;
* `removeAliasFieldNames` embeds the alias-stripping post-processor.

JavaScript objects that are used as ordered string-keyed maps are embedded
as ordered association structures; machine strings are Lean `String`s
(JavaScript compares strings lexicographically by code unit, which for the
character data used here agrees with Lean's lexicographic `String` order).
The unbounded recursion of the JavaScript functions is embedded with an
explicit fuel parameter so that every definition is executable; a theorem
below shows the result is independent of the fuel once the fuel exceeds an
explicit bound computed from the schema, which is the formal statement
that the original recursion terminates.
-/

/-- FieldDef kinds distinguished by the `switch (fieldOrListItem.type)` in
`convertFieldsToQueryAST`.  `scalar` stands for every type handled by the
`default` case.  For a field of type `list`, the source switches on
`field.items`; accordingly `ftype` holds the item type and the list
wrapper is dropped (it does not influence the generated selection). -/
inductive FieldType where
  | scalar
  | richText
  | color
  | image
  | modelField (models : List String)
  | reference (models : List String)
deriving DecidableEq, Repr

/-- A field descriptor: its name, its (item) type and the
`isMultiModel` flag that the source reads from
`model.context.fieldInfoMap[field.name]`. -/
structure FieldDef where
  name : String
  ftype : FieldType
  isMultiModel : Bool
deriving DecidableEq, Repr

/-- A model descriptor: its name and its ordered field list
(`model.fields ?? []`). -/
structure Model where
  name : String
  fields : List FieldDef
deriving DecidableEq, Repr

/-- The `getModelByName` callback.  In `getEntries` it is backed by a
finite map built from the schema's model list (`_.keyBy(models, 'name')`),
so it is embedded as a lookup over that finite list. -/
def getModelByName (schema : List Model) (modelName : String) : Option Model :=
  schema.find? (fun m => m.name == modelName)

/-- The query AST produced by `convertFieldsToQueryAST`.  In the source it
is a plain nested JavaScript object; here it is a first-order tree.
`leaf` is the value `1`; `aliasLeaf a` is a string value (the alias of a
primitive field); `obj al es` is a nested object whose optional `__alias`
property is `al` and whose ordered own entries are the entry chain `es`
(`entryNil` / `entryCons`); `onGroup bs` is the value of an `__on` key,
whose branch chain `bs` (`branchNil` / `branchCons`) maps candidate type
names to their field entry chains.  Entry and branch chains are encoded as
constructors of the same inductive so that every function on the AST is
structurally recursive and computable by the kernel. -/
inductive QAst where
  | leaf
  | aliasLeaf (a : String)
  | obj (aliasName : Option String) (entries : QAst)
  | onGroup (branches : QAst)
  | entryNil
  | entryCons (name : String) (value : QAst) (rest : QAst)
  | branchNil
  | branchCons (typeName : String) (fields : QAst) (rest : QAst)
deriving DecidableEq, Repr

/-- `aliasForFieldName` from the source, verbatim. -/
def aliasForFieldName (fieldName : String) (modelName : String) : String :=
  "__" ++ modelName ++ "_alias__" ++ fieldName

/-- The guard `typeof visitedCount !== 'undefined' && visitedCount > 5`
used to elide a model that was already visited too often on the current
path. -/
def visitedExceeds (visitedModelsCount : String → Option Nat) (modelName : String) : Bool :=
  match visitedModelsCount modelName with
  | some visitedCount => decide (visitedCount > 5)
  | none => false

/-- The ledger update
`{ ...visitedModelsCount, [modelName]: (visitedModelsCount[modelName] ?? 0) + 1 }`
passed to the recursive call. -/
def bumpLedger (visitedModelsCount : String → Option Nat) (modelName : String) :
    String → Option Nat :=
  fun n =>
    if n = modelName then some ((visitedModelsCount modelName).getD 0 + 1)
    else visitedModelsCount n

/-- The `_.mapValues(modelFields, ...)` step that aliases every field of a
polymorphic branch: a primitive field (value `1`) becomes the alias string,
a nested object receives an `__alias` property.  Output entries of
`convertFieldsToQueryAST` are only `leaf`s or unaliased `obj`s; the
remaining constructors are unreachable there and are passed through. -/
def aliasEntries (modelName : String) : QAst → QAst
  | .entryCons fieldName v rest =>
    .entryCons fieldName
      (match v with
       | .leaf => .aliasLeaf (aliasForFieldName fieldName modelName)
       | .obj _ es => .obj (some (aliasForFieldName fieldName modelName)) es
       | other => other)
      (aliasEntries modelName rest)
  | e => e

/-- The `reduce` in the `reference` case of `convertFieldsToQueryAST`:
one branch per resolvable candidate model, each selecting only `id`.
It neither consults the visit ledger nor recurses into the referenced
model's fields. -/
def referenceBranches (schema : List Model) : List String → QAst
  | [] => .branchNil
  | modelName :: rest =>
    match getModelByName schema modelName with
    | none => referenceBranches schema rest
    | some _ => .branchCons modelName (.entryCons "id" .leaf .entryNil)
        (referenceBranches schema rest)

/-- The two mutually recursive jobs inside `convertFieldsToQueryAST`: the
`for (const field of model.fields)` walk over a field list, and the
`reduce` over the candidate model names of a polymorphic component
field. -/
inductive ConvTask where
  | fieldsTask (ledger : String → Option Nat) (fields : List FieldDef)
  | branchesTask (ledger : String → Option Nat) (models : List String)

/-- The body of `convertFieldsToQueryAST`, fuel-indexed (see the module
comment; `convertGo_stable` below shows the fuel is irrelevant once large
enough).  Each case mirrors one `case` of the source's `switch`: fixed
sub-selections for `richText` / `color` / `image`, the plain value `1` for
the default case, the aliased `__on` group for a multi-model component
field, the ledger-guarded recursive expansion for a single-model component
field, and the non-recursive `id`-only selections for `reference`
fields. -/
def convertGo (schema : List Model) : Nat → ConvTask → QAst
  | 0, .fieldsTask _ _ => .entryNil
  | 0, .branchesTask _ _ => .branchNil
  | _ + 1, .fieldsTask _ [] => .entryNil
  | fuel + 1, .fieldsTask ledger (field :: rest) =>
    let tail := convertGo schema fuel (.fieldsTask ledger rest)
    match field.ftype with
    | .richText =>
      .entryCons field.name (.obj none (.entryCons "__typename" .leaf
        (.entryCons "markdown" .leaf (.entryCons "text" .leaf .entryNil)))) tail
    | .color =>
      .entryCons field.name (.obj none (.entryCons "__typename" .leaf
        (.entryCons "hex" .leaf .entryNil))) tail
    | .image =>
      .entryCons field.name (.obj none (.entryCons "__typename" .leaf
        (.entryCons "id" .leaf .entryNil))) tail
    | .scalar => .entryCons field.name .leaf tail
    | .modelField models =>
      if field.isMultiModel then
        .entryCons field.name (.obj none (.entryCons "__typename" .leaf
          (.entryCons "__on"
            (.onGroup (convertGo schema fuel (.branchesTask ledger models)))
            .entryNil))) tail
      else
        match models with
        | [modelName] =>
          if visitedExceeds ledger modelName then tail
          else
            match getModelByName schema modelName with
            | some m =>
              .entryCons field.name (.obj none (.entryCons "__typename" .leaf
                (.entryCons "id" .leaf
                  (convertGo schema fuel
                    (.fieldsTask (bumpLedger ledger modelName) m.fields))))) tail
            | none => tail
        | _ => tail
    | .reference models =>
      if field.isMultiModel then
        .entryCons field.name (.obj none (.entryCons "__typename" .leaf
          (.entryCons "__on" (.onGroup (referenceBranches schema models))
            .entryNil))) tail
      else
        match models with
        | [_] =>
          .entryCons field.name (.obj none (.entryCons "__typename" .leaf
            (.entryCons "id" .leaf .entryNil))) tail
        | _ => tail
  | _ + 1, .branchesTask _ [] => .branchNil
  | fuel + 1, .branchesTask ledger (modelName :: rest) =>
    let tailB := convertGo schema fuel (.branchesTask ledger rest)
    if visitedExceeds ledger modelName then tailB
    else
      match getModelByName schema modelName with
      | none => tailB
      | some m =>
        .branchCons modelName
          (.entryCons "id" .leaf
            (aliasEntries modelName
              (convertGo schema fuel
                (.fieldsTask (bumpLedger ledger modelName) m.fields))))
          tailB

/-- `convertFieldsToQueryAST(model, getModelByName, visitedModelsCount)`
as called on a root model. -/
def convertFieldsToQueryAST (schema : List Model) (fuel : Nat)
    (visitedModelsCount : String → Option Nat) (model : Model) : QAst :=
  convertGo schema fuel (.fieldsTask visitedModelsCount model.fields)

/-- The empty visit ledger (`visitedModelsCount = {}`, the default of the
root call). -/
def emptyLedger : String → Option Nat := fun _ => none

example :
    convertFieldsToQueryAST [⟨"A", [⟨"t", .scalar, false⟩]⟩] 3 emptyLedger
      ⟨"A", [⟨"t", .scalar, false⟩]⟩ = .entryCons "t" .leaf .entryNil := by decide

/-! ### Termination measure for the query-AST compiler

Every recursive call of `convertGo` either keeps the visit ledger and
shrinks the list it walks, or strictly increases the ledger entry of a
model that occurs in the (finite) schema and whose count was still at most
5.  `jobMeasure` flattens this lexicographic descent into a single natural
number; `convertGo_stable` below uses it to show the fuel is irrelevant
once it exceeds the measure, i.e. the original recursion terminates. -/

/-- Remaining expansion budget of the ledger over the schema's model list:
each model contributes `6 - count` (a model is expanded only while its
count is at most 5). -/
def ledgerWeight (ledger : String → Option Nat) : List Model → Nat
  | [] => 0
  | m :: rest => (6 - (ledger m.name).getD 0) + ledgerWeight ledger rest

/-- Size of one field for the payload part of the measure. -/
def fieldWeight (f : FieldDef) : Nat :=
  match f.ftype with
  | .modelField models => models.length + 2
  | .reference models => models.length + 2
  | _ => 2

/-- Size of a field list for the payload part of the measure. -/
def fieldsSize : List FieldDef → Nat
  | [] => 0
  | f :: rest => fieldWeight f + fieldsSize rest

/-- Upper bound on `fieldsSize` over all models of the schema. -/
def schemaFieldsBound : List Model → Nat
  | [] => 0
  | m :: rest => max (fieldsSize m.fields) (schemaFieldsBound rest)

/-- Payload size of a task. -/
def taskPayload : ConvTask → Nat
  | .fieldsTask _ fs => fieldsSize fs
  | .branchesTask _ ns => ns.length

/-- Ledger of a task. -/
def taskLedger : ConvTask → (String → Option Nat)
  | .fieldsTask l _ => l
  | .branchesTask l _ => l

/-- Flattened lexicographic measure of a `convertGo` task. -/
def taskMeasure (schema : List Model) (t : ConvTask) : Nat :=
  ledgerWeight (taskLedger t) schema * (schemaFieldsBound schema + 1) + taskPayload t

theorem ledgerWeight_bump_le (l : String → Option Nat) (modelName : String) :
    ∀ ms : List Model, ledgerWeight (bumpLedger l modelName) ms ≤ ledgerWeight l ms := by
  intro ms
  induction ms with
  | nil => simp [ledgerWeight]
  | cons m rest ih =>
    simp only [ledgerWeight]
    have h : (bumpLedger l modelName m.name).getD 0 ≥ (l m.name).getD 0 := by
      by_cases hm : m.name = modelName
      · subst hm
        simp [bumpLedger]
      · simp [bumpLedger, hm]
    omega

theorem ledgerWeight_bump_lt (schema : List Model) (l : String → Option Nat)
    (modelName : String) (m : Model)
    (hfind : getModelByName schema modelName = some m)
    (hvc : visitedExceeds l modelName = false) :
    ledgerWeight (bumpLedger l modelName) schema < ledgerWeight l schema := by
  have hcount : (l modelName).getD 0 ≤ 5 := by
    unfold visitedExceeds at hvc
    cases h : l modelName with
    | none => simp
    | some c =>
      rw [h] at hvc
      simp at hvc
      simpa using hvc
  induction schema with
  | nil => simp [getModelByName] at hfind
  | cons hd rest ih =>
    simp only [ledgerWeight]
    rw [getModelByName, List.find?] at hfind
    by_cases hn : hd.name = modelName
    · have hb : (bumpLedger l modelName hd.name).getD 0 = (l modelName).getD 0 + 1 := by
        simp [bumpLedger, hn]
      have := ledgerWeight_bump_le l modelName rest
      rw [hn] at hb ⊢
      omega
    · have hb : (bumpLedger l modelName hd.name).getD 0 = (l hd.name).getD 0 := by
        simp [bumpLedger, hn]
      have hne : (hd.name == modelName) = false := by
        simp [hn]
      rw [hne] at hfind
      have := ih (by rw [getModelByName]; exact hfind)
      omega

theorem fieldsSize_le_bound (schema : List Model) (modelName : String) (m : Model)
    (hfind : getModelByName schema modelName = some m) :
    fieldsSize m.fields ≤ schemaFieldsBound schema := by
  induction schema with
  | nil => simp [getModelByName] at hfind
  | cons hd rest ih =>
    rw [getModelByName, List.find?] at hfind
    simp only [schemaFieldsBound]
    by_cases hn : (hd.name == modelName) = true
    · rw [hn] at hfind
      simp at hfind
      subst hfind
      exact le_max_left _ _
    · rw [Bool.not_eq_true] at hn
      rw [hn] at hfind
      have := ih (by rw [getModelByName]; exact hfind)
      exact le_trans this (le_max_right _ _)

theorem taskMeasure_fields_cons (schema : List Model) (l : String → Option Nat)
    (f : FieldDef) (rest : List FieldDef) :
    taskMeasure schema (.fieldsTask l (f :: rest)) =
      fieldWeight f + taskMeasure schema (.fieldsTask l rest) := by
  simp [taskMeasure, taskPayload, taskLedger, fieldsSize]
  omega

theorem taskMeasure_branches_cons (schema : List Model) (l : String → Option Nat)
    (modelName : String) (rest : List String) :
    taskMeasure schema (.branchesTask l (modelName :: rest)) =
      1 + taskMeasure schema (.branchesTask l rest) := by
  simp [taskMeasure, taskPayload, taskLedger, List.length_cons]
  omega

theorem fieldWeight_ge_two (f : FieldDef) : 2 ≤ fieldWeight f := by
  cases h : f.ftype <;> simp [fieldWeight, h]

theorem fieldWeight_modelField (f : FieldDef) (models : List String)
    (h : f.ftype = .modelField models) : fieldWeight f = models.length + 2 := by
  simp [fieldWeight, h]

theorem taskMeasure_expand_lt (schema : List Model) (l : String → Option Nat)
    (modelName : String) (m : Model)
    (hfind : getModelByName schema modelName = some m)
    (hvc : visitedExceeds l modelName = false) :
    taskMeasure schema (.fieldsTask (bumpLedger l modelName) m.fields) <
      ledgerWeight l schema * (schemaFieldsBound schema + 1) := by
  have h1 := ledgerWeight_bump_lt schema l modelName m hfind hvc
  have h2 := fieldsSize_le_bound schema modelName m hfind
  simp only [taskMeasure, taskLedger, taskPayload]
  calc ledgerWeight (bumpLedger l modelName) schema * (schemaFieldsBound schema + 1)
        + fieldsSize m.fields
      < ledgerWeight (bumpLedger l modelName) schema * (schemaFieldsBound schema + 1)
        + (schemaFieldsBound schema + 1) := by omega
    _ = (ledgerWeight (bumpLedger l modelName) schema + 1) * (schemaFieldsBound schema + 1) := by
        ring
    _ ≤ ledgerWeight l schema * (schemaFieldsBound schema + 1) :=
        Nat.mul_le_mul_right _ (by omega)

theorem ledger_mul_le_taskMeasure (schema : List Model) (t : ConvTask) :
    ledgerWeight (taskLedger t) schema * (schemaFieldsBound schema + 1) ≤
      taskMeasure schema t := by
  simp [taskMeasure]

theorem convertGo_stable (schema : List Model) :
    ∀ (n : Nat) (t : ConvTask) (f g : Nat),
      taskMeasure schema t ≤ n → n < f → n < g →
      convertGo schema f t = convertGo schema g t := by
  intro n
  induction n using Nat.strong_induction_on with
  | _ n IH =>
    intro t f g hmeas hf hg
    obtain ⟨f', rfl⟩ : ∃ f', f = f' + 1 := ⟨f - 1, by omega⟩
    obtain ⟨g', rfl⟩ : ∃ g', g = g' + 1 := ⟨g - 1, by omega⟩
    have IH2 : ∀ t' : ConvTask, taskMeasure schema t' < n →
        convertGo schema f' t' = convertGo schema g' t' := by
      intro t' ht'
      exact IH (taskMeasure schema t') ht' t' f' g' (le_refl _) (by omega) (by omega)
    cases t with
    | fieldsTask l fs =>
      cases fs with
      | nil => simp [convertGo]
      | cons field rest =>
        have htail : taskMeasure schema (.fieldsTask l rest) < n := by
          have := taskMeasure_fields_cons schema l field rest
          have := fieldWeight_ge_two field
          omega
        obtain ⟨fname, ftyp, fmulti⟩ := field
        cases ftyp with
        | scalar => simp only [convertGo]; rw [IH2 _ htail]
        | richText => simp only [convertGo]; rw [IH2 _ htail]
        | color => simp only [convertGo]; rw [IH2 _ htail]
        | image => simp only [convertGo]; rw [IH2 _ htail]
        | modelField models =>
          cases fmulti with
          | true =>
            have hbr : taskMeasure schema (.branchesTask l models) < n := by
              have h1 := taskMeasure_fields_cons schema l
                ⟨fname, .modelField models, true⟩ rest
              have h2 : taskMeasure schema (.branchesTask l models) + 2 ≤
                  taskMeasure schema
                    (.fieldsTask l (⟨fname, .modelField models, true⟩ :: rest)) := by
                simp only [taskMeasure, taskPayload, taskLedger, fieldsSize, fieldWeight]
                omega
              omega
            simp only [convertGo, if_true]
            rw [IH2 _ htail, IH2 _ hbr]
          | false =>
            cases models with
            | nil =>
              simp only [convertGo, Bool.false_eq_true, if_false]
              exact IH2 _ htail
            | cons m1 ms =>
              cases ms with
              | cons m2 ms2 =>
                simp only [convertGo, Bool.false_eq_true, if_false]
                exact IH2 _ htail
              | nil =>
                by_cases hv : visitedExceeds l m1 = true
                · simp only [convertGo, hv, Bool.false_eq_true, if_false, if_true]
                  exact IH2 _ htail
                · rw [Bool.not_eq_true] at hv
                  cases hfind : getModelByName schema m1 with
                  | none =>
                    simp only [convertGo, hv, hfind, Bool.false_eq_true, if_false]
                    exact IH2 _ htail
                  | some m =>
                    have hexp : taskMeasure schema
                        (.fieldsTask (bumpLedger l m1) m.fields) < n := by
                      have h1 := taskMeasure_expand_lt schema l m1 m hfind hv
                      have h2 := ledger_mul_le_taskMeasure schema
                        (.fieldsTask l (⟨fname, .modelField [m1], false⟩ :: rest))
                      simp only [taskLedger] at h2
                      omega
                    simp only [convertGo, hv, hfind, Bool.false_eq_true, if_false]
                    rw [IH2 _ htail, IH2 _ hexp]
        | reference models =>
          cases fmulti with
          | true => simp only [convertGo, if_true]; rw [IH2 _ htail]
          | false =>
            cases models with
            | nil =>
              simp only [convertGo, Bool.false_eq_true, if_false]
              exact IH2 _ htail
            | cons m1 ms =>
              cases ms with
              | cons m2 ms2 =>
                simp only [convertGo, Bool.false_eq_true, if_false]
                exact IH2 _ htail
              | nil =>
                simp only [convertGo, Bool.false_eq_true, if_false]
                rw [IH2 _ htail]
    | branchesTask l ns =>
      cases ns with
      | nil => simp [convertGo]
      | cons m1 rest =>
        have htail : taskMeasure schema (.branchesTask l rest) < n := by
          have := taskMeasure_branches_cons schema l m1 rest
          omega
        by_cases hv : visitedExceeds l m1 = true
        · simp only [convertGo, hv, if_true]
          exact IH2 _ htail
        · rw [Bool.not_eq_true] at hv
          cases hfind : getModelByName schema m1 with
          | none =>
            simp only [convertGo, hv, hfind, Bool.false_eq_true, if_false]
            exact IH2 _ htail
          | some m =>
            have hexp : taskMeasure schema (.fieldsTask (bumpLedger l m1) m.fields) < n := by
              have h1 := taskMeasure_expand_lt schema l m1 m hfind hv
              have h2 := ledger_mul_le_taskMeasure schema (.branchesTask l (m1 :: rest))
              simp only [taskLedger] at h2
              omega
            simp only [convertGo, hv, hfind, Bool.false_eq_true, if_false]
            rw [IH2 _ htail, IH2 _ hexp]

/-! ### Per-path occurrence counts in the generated AST

The claim about cyclic schemas bounds how often a single model name can
occur along one root-to-leaf path of the generated query.  A model name
occurs in the AST exactly as the label of an inline-fragment branch
(`branchCons`).  `branchPathCount` is the maximum number of branches
labelled with a given name along any single path; `expansionPathCount`
counts only non-terminal branches (branches whose selection is more than
the bare `id` selection emitted for `reference` fields, i.e. branches that
actually expand the model's fields). -/

def branchPathCount (modelName : String) : QAst → Nat
  | .leaf => 0
  | .aliasLeaf _ => 0
  | .obj _ es => branchPathCount modelName es
  | .onGroup bs => branchPathCount modelName bs
  | .entryNil => 0
  | .entryCons _ v rest =>
    max (branchPathCount modelName v) (branchPathCount modelName rest)
  | .branchNil => 0
  | .branchCons t fs rest =>
    max ((if t = modelName then 1 else 0) + branchPathCount modelName fs)
        (branchPathCount modelName rest)

def expansionPathCount (modelName : String) : QAst → Nat
  | .leaf => 0
  | .aliasLeaf _ => 0
  | .obj _ es => expansionPathCount modelName es
  | .onGroup bs => expansionPathCount modelName bs
  | .entryNil => 0
  | .entryCons _ v rest =>
    max (expansionPathCount modelName v) (expansionPathCount modelName rest)
  | .branchNil => 0
  | .branchCons t fs rest =>
    max ((if t = modelName ∧ fs ≠ .entryCons "id" .leaf .entryNil then 1 else 0) +
          expansionPathCount modelName fs)
        (expansionPathCount modelName rest)

theorem branchPathCount_aliasEntries (M T : String) :
    ∀ es : QAst, branchPathCount M (aliasEntries T es) = branchPathCount M es := by
  intro es
  induction es with
  | entryCons nm v rest ihv ihr =>
    cases v <;> simp [aliasEntries, branchPathCount, ihr]
  | _ => simp_all [aliasEntries, branchPathCount]

theorem expansionPathCount_aliasEntries (M T : String) :
    ∀ es : QAst, expansionPathCount M (aliasEntries T es) = expansionPathCount M es := by
  intro es
  induction es with
  | entryCons nm v rest ihv ihr =>
    cases v <;> simp [aliasEntries, expansionPathCount, ihr]
  | _ => simp_all [aliasEntries, expansionPathCount]

theorem branchPathCount_referenceBranches (schema : List Model) (M : String) :
    ∀ ms : List String, branchPathCount M (referenceBranches schema ms) ≤ 1 := by
  intro ms
  induction ms with
  | nil => simp [referenceBranches, branchPathCount]
  | cons m1 rest ih =>
    simp only [referenceBranches]
    cases getModelByName schema m1 with
    | none => exact ih
    | some m =>
      simp only [branchPathCount]
      have : (if m1 = M then 1 else 0) ≤ 1 := by split <;> omega
      omega

theorem expansionPathCount_referenceBranches (schema : List Model) (M : String) :
    ∀ ms : List String, expansionPathCount M (referenceBranches schema ms) = 0 := by
  intro ms
  induction ms with
  | nil => simp [referenceBranches, expansionPathCount]
  | cons m1 rest ih =>
    simp only [referenceBranches]
    cases getModelByName schema m1 with
    | none => exact ih
    | some m => simp [expansionPathCount, ih]

theorem bumpLedger_getD (l : String → Option Nat) (mn M : String) :
    ((bumpLedger l mn) M).getD 0 =
      if M = mn then (l mn).getD 0 + 1 else (l M).getD 0 := by
  by_cases h : M = mn <;> simp [bumpLedger, h]

theorem visitedExceeds_false_le (l : String → Option Nat) (mn : String)
    (h : visitedExceeds l mn = false) : (l mn).getD 0 ≤ 5 := by
  unfold visitedExceeds at h
  cases hl : l mn with
  | none => simp
  | some c => rw [hl] at h; simp at h; simpa using h

theorem convertGo_pathCount (schema : List Model) (M : String) :
    ∀ (fuel : Nat) (t : ConvTask),
      branchPathCount M (convertGo schema fuel t) + min ((taskLedger t M).getD 0) 6 ≤ 7 ∧
      expansionPathCount M (convertGo schema fuel t) + min ((taskLedger t M).getD 0) 6 ≤ 6 := by
  intro fuel
  induction fuel with
  | zero =>
    intro t
    cases t <;> simp [convertGo, branchPathCount, expansionPathCount]
  | succ fuel IH =>
    intro t
    cases t with
    | fieldsTask l fs =>
      cases fs with
      | nil =>
        simp only [convertGo, branchPathCount, expansionPathCount, taskLedger]
        omega
      | cons field rest =>
        obtain ⟨ihb, ihe⟩ := IH (.fieldsTask l rest)
        simp only [taskLedger] at ihb ihe ⊢
        obtain ⟨fname, ftyp, fmulti⟩ := field
        cases ftyp with
        | scalar =>
          simp only [convertGo, branchPathCount, expansionPathCount]
          omega
        | richText =>
          simp [convertGo, branchPathCount, expansionPathCount]
          omega
        | color =>
          simp [convertGo, branchPathCount, expansionPathCount]
          omega
        | image =>
          simp [convertGo, branchPathCount, expansionPathCount]
          omega
        | modelField models =>
          cases fmulti with
          | true =>
            obtain ⟨ihbB, iheB⟩ := IH (.branchesTask l models)
            simp only [taskLedger] at ihbB iheB
            simp [convertGo, branchPathCount, expansionPathCount]
            omega
          | false =>
            cases models with
            | nil =>
              simp only [convertGo, Bool.false_eq_true, if_false]
              omega
            | cons m1 ms =>
              cases ms with
              | cons m2 ms2 =>
                simp only [convertGo, Bool.false_eq_true, if_false]
                omega
              | nil =>
                by_cases hv : visitedExceeds l m1 = true
                · simp only [convertGo, hv, Bool.false_eq_true, if_false, if_true]
                  omega
                · rw [Bool.not_eq_true] at hv
                  cases hfind : getModelByName schema m1 with
                  | none =>
                    simp only [convertGo, hv, hfind, Bool.false_eq_true, if_false]
                    omega
                  | some m =>
                    obtain ⟨ihbI, iheI⟩ := IH (.fieldsTask (bumpLedger l m1) m.fields)
                    simp only [taskLedger] at ihbI iheI
                    rw [bumpLedger_getD] at ihbI iheI
                    have hc5 := visitedExceeds_false_le l m1 hv
                    simp only [convertGo, hv, hfind, Bool.false_eq_true, if_false]
                    by_cases hM : M = m1
                    · rw [if_pos hM] at ihbI iheI
                      subst hM
                      simp [branchPathCount, expansionPathCount]
                      omega
                    · rw [if_neg hM] at ihbI iheI
                      simp [branchPathCount, expansionPathCount]
                      omega
        | reference models =>
          have h1 := branchPathCount_referenceBranches schema M models
          have h2 := expansionPathCount_referenceBranches schema M models
          cases fmulti with
          | true =>
            simp [convertGo, branchPathCount, expansionPathCount, h2]
            omega
          | false =>
            cases models with
            | nil =>
              simp only [convertGo, Bool.false_eq_true, if_false]
              omega
            | cons m1 ms =>
              cases ms with
              | cons m2 ms2 =>
                simp only [convertGo, Bool.false_eq_true, if_false]
                omega
              | nil =>
                simp [convertGo, branchPathCount, expansionPathCount]
                omega
    | branchesTask l ns =>
      cases ns with
      | nil =>
        simp only [convertGo, branchPathCount, expansionPathCount, taskLedger]
        omega
      | cons m1 rest =>
        obtain ⟨ihb, ihe⟩ := IH (.branchesTask l rest)
        simp only [taskLedger] at ihb ihe ⊢
        by_cases hv : visitedExceeds l m1 = true
        · simp only [convertGo, hv, if_true]
          omega
        · rw [Bool.not_eq_true] at hv
          cases hfind : getModelByName schema m1 with
          | none =>
            simp only [convertGo, hv, hfind, Bool.false_eq_true, if_false]
            omega
          | some m =>
            obtain ⟨ihbI, iheI⟩ := IH (.fieldsTask (bumpLedger l m1) m.fields)
            simp only [taskLedger] at ihbI iheI
            rw [bumpLedger_getD] at ihbI iheI
            have hc5 := visitedExceeds_false_le l m1 hv
            simp only [convertGo, hv, hfind, Bool.false_eq_true, if_false]
            have hba := branchPathCount_aliasEntries M m1
              (convertGo schema fuel (.fieldsTask (bumpLedger l m1) m.fields))
            have hea := expansionPathCount_aliasEntries M m1
              (convertGo schema fuel (.fieldsTask (bumpLedger l m1) m.fields))
            by_cases hM : M = m1
            · rw [if_pos hM] at ihbI iheI
              subst hM
              by_cases hX : aliasEntries M
                  (convertGo schema fuel (.fieldsTask (bumpLedger l M) m.fields)) = .entryNil
              · simp [branchPathCount, expansionPathCount, hX] at *
                omega
              · simp [branchPathCount, expansionPathCount, hX, hba, hea]
                omega
            · rw [if_neg hM] at ihbI iheI
              have hM2 : ¬ (m1 = M) := fun h => hM h.symm
              simp [branchPathCount, expansionPathCount, hM2, hba, hea]
              omega

/-! ### Aliasing inside polymorphic branches -/

/-- Entry chains whose values are only primitive leaves or unaliased
objects — the shape of every entry chain produced by
`convertFieldsToQueryAST` before branch aliasing is applied. -/
def plainEntries : QAst → Bool
  | .entryNil => true
  | .entryCons _ .leaf rest => plainEntries rest
  | .entryCons _ (.obj none _) rest => plainEntries rest
  | _ => false

/-- Checks the aliasing discipline of an AST.  The first argument is the
branch context: `some T` while walking the entries that sit directly
inside an inline-fragment branch for type `T`, `none` elsewhere.  Inside a
branch for `T`, the branch must start with the injected unaliased `id`
selection and every following entry must carry the alias
`aliasForFieldName fieldName T` (as the value of a primitive field or as
the `__alias` of a nested object). -/
def aliasCheck : Option String → QAst → Bool
  | _, .leaf => true
  | _, .aliasLeaf _ => true
  | _, .obj _ es => aliasCheck none es
  | _, .onGroup bs => aliasCheck none bs
  | _, .entryNil => true
  | none, .entryCons _ v rest => aliasCheck none v && aliasCheck none rest
  | some T, .entryCons k v rest =>
    (match v with
     | .aliasLeaf a => a == aliasForFieldName k T
     | .obj (some a) es => (a == aliasForFieldName k T) && aliasCheck none es
     | _ => false) && aliasCheck (some T) rest
  | _, .branchNil => true
  | _, .branchCons T fs rest =>
    (match fs with
     | .entryCons k v inner => k == "id" && (v == QAst.leaf) && aliasCheck (some T) inner
     | _ => false) && aliasCheck none rest

/-- The aliasing discipline exactly as the claim states it: every field
selection inside a branch — including the injected `id` — must carry the
branch type's alias. -/
def strictAliasCheck : Option String → QAst → Bool
  | _, .leaf => true
  | _, .aliasLeaf _ => true
  | _, .obj _ es => strictAliasCheck none es
  | _, .onGroup bs => strictAliasCheck none bs
  | _, .entryNil => true
  | none, .entryCons _ v rest => strictAliasCheck none v && strictAliasCheck none rest
  | some T, .entryCons k v rest =>
    (match v with
     | .aliasLeaf a => a == aliasForFieldName k T
     | .obj (some a) es => (a == aliasForFieldName k T) && strictAliasCheck none es
     | _ => false) && strictAliasCheck (some T) rest
  | _, .branchNil => true
  | _, .branchCons T fs rest =>
    strictAliasCheck (some T) fs && strictAliasCheck none rest

theorem aliasCheck_aliasEntries (T : String) :
    ∀ es : QAst, plainEntries es = true → aliasCheck none es = true →
      aliasCheck (some T) (aliasEntries T es) = true := by
  intro es
  induction es with
  | entryCons k v rest ihv ihr =>
    intro hp hc
    cases v with
    | leaf =>
      simp only [plainEntries] at hp
      simp only [aliasCheck, Bool.and_eq_true] at hc
      simp [aliasEntries, aliasCheck, ihr hp hc.2]
    | obj al es' =>
      cases al with
      | none =>
        simp only [plainEntries] at hp
        simp only [aliasCheck, Bool.and_eq_true] at hc
        simp [aliasEntries, aliasCheck, ihr hp hc.2, hc.1]
      | some a => simp [plainEntries] at hp
    | aliasLeaf a => simp [plainEntries] at hp
    | onGroup bs => simp [plainEntries] at hp
    | entryNil => simp [plainEntries] at hp
    | entryCons k2 v2 r2 => simp [plainEntries] at hp
    | branchNil => simp [plainEntries] at hp
    | branchCons t2 f2 r2 => simp [plainEntries] at hp
  | entryNil => intro _ _; simp [aliasEntries, aliasCheck]
  | _ => intro hp; simp [plainEntries] at hp

theorem aliasCheck_referenceBranches (schema : List Model) :
    ∀ ms : List String, aliasCheck none (referenceBranches schema ms) = true := by
  intro ms
  induction ms with
  | nil => simp [referenceBranches, aliasCheck]
  | cons m1 rest ih =>
    simp only [referenceBranches]
    cases getModelByName schema m1 with
    | none => exact ih
    | some m => simp [aliasCheck, ih]

theorem convertGo_plainEntries (schema : List Model) :
    ∀ (fuel : Nat) (l : String → Option Nat) (fs : List FieldDef),
      plainEntries (convertGo schema fuel (.fieldsTask l fs)) = true := by
  intro fuel
  induction fuel with
  | zero => intro l fs; simp [convertGo, plainEntries]
  | succ fuel IH =>
    intro l fs
    cases fs with
    | nil => simp [convertGo, plainEntries]
    | cons field rest =>
      obtain ⟨fname, ftyp, fmulti⟩ := field
      cases ftyp with
      | scalar => simp [convertGo, plainEntries, IH]
      | richText => simp [convertGo, plainEntries, IH]
      | color => simp [convertGo, plainEntries, IH]
      | image => simp [convertGo, plainEntries, IH]
      | modelField models =>
        cases fmulti with
        | true => simp [convertGo, plainEntries, IH]
        | false =>
          cases models with
          | nil => simp [convertGo, plainEntries, IH]
          | cons m1 ms =>
            cases ms with
            | cons m2 ms2 => simp [convertGo, plainEntries, IH]
            | nil =>
              by_cases hv : visitedExceeds l m1 = true
              · simp [convertGo, hv, plainEntries, IH]
              · rw [Bool.not_eq_true] at hv
                cases hfind : getModelByName schema m1 with
                | none => simp [convertGo, hv, hfind, plainEntries, IH]
                | some m => simp [convertGo, hv, hfind, plainEntries, IH]
      | reference models =>
        cases fmulti with
        | true => simp [convertGo, plainEntries, IH]
        | false =>
          cases models with
          | nil => simp [convertGo, plainEntries, IH]
          | cons m1 ms =>
            cases ms with
            | cons m2 ms2 => simp [convertGo, plainEntries, IH]
            | nil => simp [convertGo, plainEntries, IH]

theorem convertGo_aliasCheck (schema : List Model) :
    ∀ (fuel : Nat) (t : ConvTask), aliasCheck none (convertGo schema fuel t) = true := by
  intro fuel
  induction fuel with
  | zero => intro t; cases t <;> simp [convertGo, aliasCheck]
  | succ fuel IH =>
    intro t
    cases t with
    | fieldsTask l fs =>
      cases fs with
      | nil => simp [convertGo, aliasCheck]
      | cons field rest =>
        obtain ⟨fname, ftyp, fmulti⟩ := field
        cases ftyp with
        | scalar => simp [convertGo, aliasCheck, IH]
        | richText => simp [convertGo, aliasCheck, IH]
        | color => simp [convertGo, aliasCheck, IH]
        | image => simp [convertGo, aliasCheck, IH]
        | modelField models =>
          cases fmulti with
          | true => simp [convertGo, aliasCheck, IH]
          | false =>
            cases models with
            | nil => simp [convertGo, aliasCheck, IH]
            | cons m1 ms =>
              cases ms with
              | cons m2 ms2 => simp [convertGo, aliasCheck, IH]
              | nil =>
                by_cases hv : visitedExceeds l m1 = true
                · simp [convertGo, hv, aliasCheck, IH]
                · rw [Bool.not_eq_true] at hv
                  cases hfind : getModelByName schema m1 with
                  | none => simp [convertGo, hv, hfind, aliasCheck, IH]
                  | some m => simp [convertGo, hv, hfind, aliasCheck, IH]
        | reference models =>
          have href := aliasCheck_referenceBranches schema models
          cases fmulti with
          | true => simp [convertGo, aliasCheck, IH, href]
          | false =>
            cases models with
            | nil => simp [convertGo, aliasCheck, IH]
            | cons m1 ms =>
              cases ms with
              | cons m2 ms2 => simp [convertGo, aliasCheck, IH]
              | nil => simp [convertGo, aliasCheck, IH]
    | branchesTask l ns =>
      cases ns with
      | nil => simp [convertGo, aliasCheck]
      | cons m1 rest =>
        by_cases hv : visitedExceeds l m1 = true
        · simp [convertGo, hv, IH]
        · rw [Bool.not_eq_true] at hv
          cases hfind : getModelByName schema m1 with
          | none => simp [convertGo, hv, hfind, IH]
          | some m =>
            have hplain := convertGo_plainEntries schema fuel (bumpLedger l m1) m.fields
            have hinner := IH (.fieldsTask (bumpLedger l m1) m.fields)
            have halias := aliasCheck_aliasEntries m1 _ hplain hinner
            simp [convertGo, hv, hfind, aliasCheck, IH, halias]

/-! ### Claim C1 -/

/-- A self-referencing cyclic schema: model `A` has a multi-model
component field whose only candidate is `A` itself. -/
def cyclicModel : Model := ⟨"A", [⟨"f", .modelField ["A"], true⟩]⟩

/-- C1 (amended): for every finite schema graph — cyclic or not — and
every root model, `convertFieldsToQueryAST` terminates: its fuel-indexed
embedding returns the same AST for every fuel above the explicit measure
`taskMeasure` of the initial call, so the original unbounded recursion
reaches a fixed point.  Along any root-to-leaf path of that AST a single
model name is expanded as a component branch at most 6 times — not 5: the
code elides a type only once its per-path visit count exceeds 5, which
permits six expansions — and occurs as a branch label at most 7 times in
total (the six expansions plus at most one terminal `reference` branch
that selects only `id`). -/
theorem convertFieldsToQueryAST_terminates_and_bounded
    (schema : List Model) (model : Model) (M : String) (f g : Nat)
    (hf : taskMeasure schema (.fieldsTask emptyLedger model.fields) < f)
    (hg : taskMeasure schema (.fieldsTask emptyLedger model.fields) < g) :
    convertFieldsToQueryAST schema f emptyLedger model =
      convertFieldsToQueryAST schema g emptyLedger model ∧
    expansionPathCount M (convertFieldsToQueryAST schema f emptyLedger model) ≤ 6 ∧
    branchPathCount M (convertFieldsToQueryAST schema f emptyLedger model) ≤ 7 := by
  refine ⟨convertGo_stable schema _ _ f g (le_refl _) hf hg, ?_, ?_⟩
  · have h := (convertGo_pathCount schema M f (.fieldsTask emptyLedger model.fields)).2
    simp only [taskLedger] at h
    have h2 : (emptyLedger M).getD 0 = 0 := rfl
    rw [h2] at h
    unfold convertFieldsToQueryAST
    omega
  · have h := (convertGo_pathCount schema M f (.fieldsTask emptyLedger model.fields)).1
    simp only [taskLedger] at h
    have h2 : (emptyLedger M).getD 0 = 0 := rfl
    rw [h2] at h
    unfold convertFieldsToQueryAST
    omega

/-- C1 counterexample: on the one-model cyclic schema the compiled AST
contains a root-to-leaf path on which model name `A` occurs 6 times — the
claimed bound of 5 is exceeded.  The fuel 40 is beyond the measure of the
call (first conjunct), so this is the stable (terminated) value of the
compilation. -/
theorem convertFieldsToQueryAST_visit_bound_counterexample :
    taskMeasure [cyclicModel] (.fieldsTask emptyLedger cyclicModel.fields) < 40 ∧
    branchPathCount "A" (convertFieldsToQueryAST [cyclicModel] 40 emptyLedger cyclicModel) = 6 ∧
    5 < branchPathCount "A" (convertFieldsToQueryAST [cyclicModel] 40 emptyLedger cyclicModel) := by
  decide

/-- Witness for C1 at a concrete cyclic schema. -/
theorem convertFieldsToQueryAST_terminates_and_bounded_witness :
    convertFieldsToQueryAST [cyclicModel] 30 emptyLedger cyclicModel =
      convertFieldsToQueryAST [cyclicModel] 40 emptyLedger cyclicModel ∧
    expansionPathCount "A" (convertFieldsToQueryAST [cyclicModel] 30 emptyLedger cyclicModel) ≤ 6 ∧
    branchPathCount "A" (convertFieldsToQueryAST [cyclicModel] 30 emptyLedger cyclicModel) ≤ 7 :=
  convertFieldsToQueryAST_terminates_and_bounded [cyclicModel] cyclicModel "A" 30 40
    (by decide) (by decide)

/-! ### Claim C2 -/

/-- Demo schema for the aliasing claim: model `A` has a polymorphic
component field `f` with candidate type `B`; `B` has a scalar `title`. -/
def demoModelB : Model := ⟨"B", [⟨"title", .scalar, false⟩]⟩

/-- Root model of the aliasing demo schema. -/
def demoModelA : Model := ⟨"A", [⟨"f", .modelField ["B"], true⟩]⟩

/-- The aliasing demo schema. -/
def demoAliasSchema : List Model := [demoModelA, demoModelB]

/-- C2 counterexample: the `B` branch produced for the polymorphic field
`f` contains the injected selection `id` with no alias (first conjunct
shows the exact AST: `id` is a bare leaf while `title` is aliased), so the
claim that every field selection inside each per-type branch carries the
alias `__<typeName>_alias__<fieldName>` fails on this input (second
conjunct: the claim's checker rejects the output). -/
theorem polymorphic_branch_alias_counterexample :
    convertFieldsToQueryAST demoAliasSchema 10 emptyLedger demoModelA =
      .entryCons "f" (.obj none (.entryCons "__typename" .leaf
        (.entryCons "__on" (.onGroup (.branchCons "B"
          (.entryCons "id" .leaf
            (.entryCons "title" (.aliasLeaf "__B_alias__title") .entryNil))
          .branchNil)) .entryNil))) .entryNil ∧
    strictAliasCheck none
      (convertFieldsToQueryAST demoAliasSchema 10 emptyLedger demoModelA) = false := by
  decide

/-- C2 (amended): in every AST produced by `convertFieldsToQueryAST`,
every per-type branch of a polymorphic field starts with the injected
unaliased `id` selection, and every other field selection inside the
branch carries the alias `__<typeName>_alias__<fieldName>` for that
branch's type name — as the value of a primitive selection or as the
`__alias` of a nested object (`aliasCheck`); the alias has exactly the
shape `"__" ++ typeName ++ "_alias__" ++ fieldName` (second conjunct). -/
theorem polymorphic_branch_fields_aliased
    (schema : List Model) (fuel : Nat) (ledger : String → Option Nat) (model : Model) :
    aliasCheck none (convertFieldsToQueryAST schema fuel ledger model) = true ∧
    ∀ fieldName typeName : String,
      aliasForFieldName fieldName typeName = "__" ++ typeName ++ "_alias__" ++ fieldName :=
  ⟨convertGo_aliasCheck schema fuel (.fieldsTask ledger model.fields),
   fun _ _ => rfl⟩

/-! ### Claim C10 -/

/-- Nesting depth of a query AST: each object or conditional group adds a
level; a branch's selection sits one level below its fragment. -/
def astDepth : QAst → Nat
  | .leaf => 0
  | .aliasLeaf _ => 0
  | .obj _ es => 1 + astDepth es
  | .onGroup bs => 1 + astDepth bs
  | .entryNil => 0
  | .entryCons _ v rest => max (astDepth v) (astDepth rest)
  | .branchNil => 0
  | .branchCons _ fs rest => max (1 + astDepth fs) (astDepth rest)

theorem astDepth_referenceBranches (schema : List Model) :
    ∀ ms : List String, astDepth (referenceBranches schema ms) ≤ 1 := by
  intro ms
  induction ms with
  | nil => simp [referenceBranches, astDepth]
  | cons m1 rest ih =>
    simp only [referenceBranches]
    cases getModelByName schema m1 with
    | none => exact ih
    | some m =>
      simp [astDepth]
      omega

theorem referenceBranches_resolvability (ms : List String) :
    ∀ schema₁ schema₂ : List Model,
      (∀ n, (getModelByName schema₁ n).isSome = (getModelByName schema₂ n).isSome) →
      referenceBranches schema₁ ms = referenceBranches schema₂ ms := by
  induction ms with
  | nil => intro _ _ _; rfl
  | cons m1 rest ih =>
    intro s1 s2 h
    have h1 := h m1
    simp only [referenceBranches]
    cases h2 : getModelByName s1 m1 with
    | none =>
      rw [h2] at h1
      cases h3 : getModelByName s2 m1 with
      | none => exact ih s1 s2 h
      | some m => rw [h3] at h1; simp at h1
    | some m =>
      rw [h2] at h1
      cases h3 : getModelByName s2 m1 with
      | none => rw [h3] at h1; simp at h1
      | some m2 => rw [ih s1 s2 h]

theorem convertGo_fields_nil (schema : List Model) (fuel : Nat)
    (l : String → Option Nat) : convertGo schema fuel (.fieldsTask l []) = .entryNil := by
  cases fuel <;> simp [convertGo]

/-- C10: a `reference` (document-relation) field never recurses into the
referenced model's fields and never consults or increments the visit
ledger.  First conjunct: the compiled entry for a reference field is a
closed form — for a multi-model reference, `__typename` plus one branch
per resolvable candidate selecting only the unaliased `id`; for a
single-model reference, exactly `__typename` and `id`; otherwise the field
is dropped — with the ledger passed through untouched.  Second conjunct:
the compilation of a reference field is the same under every ledger.
Third conjunct: the branch list depends only on which candidate names
resolve, not on the referenced models' fields.  Fourth conjunct: the
compiled value of a multi-model reference has constant nesting depth
(at most 3), so reference cycles cannot grow the query's depth. -/
theorem reference_field_no_recursion_no_ledger
    (schema : List Model) (fuel : Nat) (l : String → Option Nat)
    (field : FieldDef) (rest : List FieldDef) (ms : List String)
    (h : field.ftype = .reference ms) :
    (convertGo schema (fuel + 1) (.fieldsTask l (field :: rest)) =
      if field.isMultiModel then
        .entryCons field.name (.obj none (.entryCons "__typename" .leaf
          (.entryCons "__on" (.onGroup (referenceBranches schema ms)) .entryNil)))
          (convertGo schema fuel (.fieldsTask l rest))
      else
        match ms with
        | [_] =>
          .entryCons field.name (.obj none (.entryCons "__typename" .leaf
            (.entryCons "id" .leaf .entryNil)))
            (convertGo schema fuel (.fieldsTask l rest))
        | _ => convertGo schema fuel (.fieldsTask l rest)) ∧
    (∀ l₂ : String → Option Nat,
      convertGo schema (fuel + 1) (.fieldsTask l [field]) =
        convertGo schema (fuel + 1) (.fieldsTask l₂ [field])) ∧
    (∀ schema₂ : List Model,
      (∀ n, (getModelByName schema n).isSome = (getModelByName schema₂ n).isSome) →
      referenceBranches schema ms = referenceBranches schema₂ ms) ∧
    astDepth (.obj none (.entryCons "__typename" .leaf
      (.entryCons "__on" (.onGroup (referenceBranches schema ms)) .entryNil))) ≤ 3 := by
  obtain ⟨fname, ftyp, fmulti⟩ := field
  simp only [FieldDef.mk.injEq] at h
  subst h
  refine ⟨?_, ?_, fun s2 hs => referenceBranches_resolvability ms schema s2 hs, ?_⟩
  · cases fmulti with
    | true => simp [convertGo]
    | false =>
      cases ms with
      | nil => simp [convertGo]
      | cons m1 mss =>
        cases mss with
        | nil => simp [convertGo]
        | cons m2 ms2 => simp [convertGo]
  · intro l₂
    cases fmulti with
    | true => simp [convertGo, convertGo_fields_nil]
    | false =>
      cases ms with
      | nil => simp [convertGo, convertGo_fields_nil]
      | cons m1 mss =>
        cases mss with
        | nil => simp [convertGo, convertGo_fields_nil]
        | cons m2 ms2 => simp [convertGo, convertGo_fields_nil]
  · have := astDepth_referenceBranches schema ms
    simp [astDepth]
    omega

/-- Witness for C10: a concrete multi-model reference field against a
schema in which the referenced model has fields of its own. -/
theorem reference_field_no_recursion_no_ledger_witness :
    convertGo [demoModelB] 6 (.fieldsTask emptyLedger [⟨"r", .reference ["B", "C"], true⟩]) =
      .entryCons "r" (.obj none (.entryCons "__typename" .leaf
        (.entryCons "__on" (.onGroup (referenceBranches [demoModelB] ["B", "C"]))
          .entryNil))) .entryNil := by
  have h := (reference_field_no_recursion_no_ledger [demoModelB] 5 emptyLedger
    ⟨"r", .reference ["B", "C"], true⟩ [] ["B", "C"] rfl).1
  simpa [convertGo_fields_nil] using h

/-! ### The paginated fetch loop of `getEntries`

`HygraphApiClient.getEntries` builds one connection query per data model
(`skip: 0` initially) and then runs a do/while loop: send the combined
query, append each connection's nodes to the accumulator, advance the
`skip` argument of every connection whose `pageInfo.hasNextPage` is true
by its reported `pageInfo.pageSize`, restrict the query to exactly those
connections (`_.pick`, which preserves order), and repeat while any
remain.  A thrown request error aborts the whole loop: one warning is
logged and `[]` is returned, discarding the accumulator.

The network is the loop's environment.  The claim quantifies over what
each stream reports on its successive responses, so the environment is
embedded as, per stream, the list of page responses it returns on its 1st,
2nd, … request, plus an oracle `fail` telling whether the combined request
of a given round throws.  Items are opaque tokens (each node is passed
through `removeAliasFieldNames`, which is studied separately and is the
identity on opaque tokens). -/

/-- One connection result: the nodes of this page, the reported
`pageInfo.pageSize` and `pageInfo.hasNextPage`. -/
structure PageResult where
  items : List String
  pageSize : Nat
  hasNextPage : Bool
deriving DecidableEq, Repr

/-- The loop state of one stream: its connection name, its current `skip`
argument, and the page responses it has not yet served. -/
structure StreamState where
  name : String
  skip : Nat
  pages : List PageResult
deriving DecidableEq, Repr

/-- Serving one round to one stream: the returned items, and the stream's
next state — `none` once `hasNextPage` is false (the stream is dropped
from the query by `_.pick`), otherwise the same stream with `skip`
advanced by the reported page size. -/
def stepStream (s : StreamState) : List String × Option StreamState :=
  match s.pages with
  | [] => ([], none)
  | p :: rest =>
    (p.items,
     if p.hasNextPage then some ⟨s.name, s.skip + p.pageSize, rest⟩ else none)

/-- The combined query of one round: the still-active connections with
their current `skip` offsets. -/
def roundRequest (streams : List StreamState) : List (String × Nat) :=
  streams.map fun s => (s.name, s.skip)

/-- All items returned in one round, in connection order. -/
def roundItems (streams : List StreamState) : List String :=
  (streams.map fun s => (stepStream s).1).flatten

/-- The streams kept for the next round. -/
def nextStreams (streams : List StreamState) : List StreamState :=
  streams.filterMap fun s => (stepStream s).2

/-- The do/while loop of `getEntries`.  Returns `none` in the first
component when some round's request failed (the `catch` branch), else all
accumulated items, together with the per-round request trace.  The `Nat`
argument after the fuel is the round index, used only by the failure
oracle. -/
def getEntriesGo (fail : Nat → Bool) :
    Nat → Nat → List StreamState → Option (List String) × List (List (String × Nat))
  | 0, _, _ => (some [], [])
  | fuel + 1, round, streams =>
    let req := roundRequest streams
    if fail round then (none, [req])
    else
      let items := roundItems streams
      let next := nextStreams streams
      if next.isEmpty then (some items, [req])
      else
        let rest := getEntriesGo fail fuel (round + 1) next
        (rest.1.map (fun restItems => items ++ restItems), req :: rest.2)

/-- `getEntries`: runs the loop and applies the `try`/`catch` policy — on
success the accumulated items with 0 warnings, on a request error an empty
result with exactly 1 `logger.warn`.  Also returns the request trace. -/
def getEntries (fail : Nat → Bool) (fuel : Nat) (streams : List StreamState) :
    List String × List (List (String × Nat)) × Nat :=
  match getEntriesGo fail fuel 0 streams with
  | (some items, reqs) => (items, reqs, 0)
  | (none, reqs) => ([], reqs, 1)

/-- The claim's page discipline for one stream: at least one response,
`hasNextPage = true` on every response but the last, `false` on the
last. -/
def wfPagesFlags : List PageResult → Bool
  | [] => false
  | [p] => !p.hasNextPage
  | p :: rest => p.hasNextPage && wfPagesFlags rest

/-- Items of the `r`-th page of a stream. -/
def pageItems (s : StreamState) (r : Nat) : List String :=
  ((s.pages.get? r).map PageResult.items).getD []

/-- Sum of the reported page sizes of the first `r` pages. -/
def pageSizesSum (s : StreamState) (r : Nat) : Nat :=
  ((s.pages.take r).map PageResult.pageSize).sum

/-- Expected combined query of round `r`: the streams with more than `r`
pages, each with its initial skip advanced by the sizes of its first `r`
pages. -/
def traceSpec (streams : List StreamState) (r : Nat) : List (String × Nat) :=
  (streams.filter fun s => decide (r < s.pages.length)).map
    fun s => (s.name, s.skip + pageSizesSum s r)

/-- Expected items of round `r`. -/
def itemsSpecRound (streams : List StreamState) (r : Nat) : List String :=
  ((streams.filter fun s => decide (r < s.pages.length)).map fun s => pageItems s r).flatten

/-- `max i p_i`: the largest page count over all streams. -/
def maxPagesOf (streams : List StreamState) : Nat :=
  (streams.map fun s => s.pages.length).foldr max 0

/-- All items of all streams across all pages, stream-major. -/
def streamMajor (streams : List StreamState) : List String :=
  (streams.map fun s => (s.pages.map PageResult.items).flatten).flatten

/-- Dropping the already-served head page of a stream. -/
def shiftStream (s : StreamState) : StreamState :=
  match s.pages with
  | [] => s
  | p :: rest => ⟨s.name, s.skip + p.pageSize, rest⟩

theorem wf_pages_ne_nil {pages : List PageResult} (h : wfPagesFlags pages = true) :
    pages ≠ [] := by
  cases pages with
  | nil => simp [wfPagesFlags] at h
  | cons p ps => simp

theorem wf_pages_pos {s : StreamState} (h : wfPagesFlags s.pages = true) :
    0 < s.pages.length := by
  cases hp : s.pages with
  | nil => rw [hp] at h; simp [wfPagesFlags] at h
  | cons p ps => simp

theorem wf_head_next_of_long {p : PageResult} {ps : List PageResult}
    (h : wfPagesFlags (p :: ps) = true) (hne : ps ≠ []) :
    p.hasNextPage = true ∧ wfPagesFlags ps = true := by
  cases ps with
  | nil => simp at hne
  | cons q qs =>
    rw [show wfPagesFlags (p :: q :: qs) = (p.hasNextPage && wfPagesFlags (q :: qs))
        from rfl] at h
    exact ⟨(Bool.and_eq_true _ _).mp h |>.1, (Bool.and_eq_true _ _).mp h |>.2⟩

theorem wf_head_not_next_of_single {p : PageResult}
    (h : wfPagesFlags [p] = true) : p.hasNextPage = false := by
  rw [show wfPagesFlags [p] = !p.hasNextPage from rfl] at h
  simp at h
  exact h

theorem roundItems_spec (streams : List StreamState)
    (hwf : ∀ s ∈ streams, wfPagesFlags s.pages = true) :
    roundItems streams = itemsSpecRound streams 0 := by
  unfold roundItems itemsSpecRound
  have hf : streams.filter (fun s => decide (0 < s.pages.length)) = streams :=
    List.filter_eq_self.mpr (fun s hs => by simpa using wf_pages_pos (hwf s hs))
  rw [hf]
  congr 1
  apply List.map_congr_left
  intro s hs
  have := wf_pages_pos (hwf s hs)
  cases hp : s.pages with
  | nil => rw [hp] at this; simp at this
  | cons p ps => simp [stepStream, hp, pageItems]

theorem roundRequest_spec (streams : List StreamState)
    (hwf : ∀ s ∈ streams, wfPagesFlags s.pages = true) :
    roundRequest streams = traceSpec streams 0 := by
  unfold roundRequest traceSpec
  have hf : streams.filter (fun s => decide (0 < s.pages.length)) = streams :=
    List.filter_eq_self.mpr (fun s hs => by simpa using wf_pages_pos (hwf s hs))
  rw [hf]
  apply List.map_congr_left
  intro s _
  simp [pageSizesSum]

theorem nextStreams_eq (streams : List StreamState)
    (hwf : ∀ s ∈ streams, wfPagesFlags s.pages = true) :
    nextStreams streams =
      (streams.filter fun s => decide (1 < s.pages.length)).map shiftStream := by
  induction streams with
  | nil => rfl
  | cons s rest ih =>
    have hwfs := hwf s (List.mem_cons_self s rest)
    have ihr := ih fun x hx => hwf x (List.mem_cons_of_mem _ hx)
    unfold nextStreams at ihr ⊢
    cases hp : s.pages with
    | nil => rw [hp] at hwfs; simp [wfPagesFlags] at hwfs
    | cons p ps =>
      cases hps : ps with
      | nil =>
        subst hps
        rw [hp] at hwfs
        have hn := wf_head_not_next_of_single hwfs
        simp [List.filterMap_cons, List.filter_cons, stepStream, hp, hn]
        simpa [stepStream] using ihr
      | cons q qs =>
        subst hps
        rw [hp] at hwfs
        have hn := (wf_head_next_of_long hwfs (by simp)).1
        simp [List.filterMap_cons, List.filter_cons, stepStream, hp, hn, shiftStream]
        simpa [stepStream] using ihr

theorem shiftStream_pages {s : StreamState} {p : PageResult} {ps : List PageResult}
    (hp : s.pages = p :: ps) : (shiftStream s).pages = ps := by
  simp [shiftStream, hp]

theorem shiftStream_len {s : StreamState} (h : 0 < s.pages.length) :
    (shiftStream s).pages.length = s.pages.length - 1 := by
  cases hp : s.pages with
  | nil => rw [hp] at h; simp at h
  | cons p ps => simp [shiftStream, hp]

theorem wf_mem_nextStreams (streams : List StreamState)
    (hwf : ∀ s ∈ streams, wfPagesFlags s.pages = true) :
    ∀ s₂ ∈ nextStreams streams, wfPagesFlags s₂.pages = true := by
  intro s₂ hs₂
  rw [nextStreams_eq streams hwf] at hs₂
  obtain ⟨s, hs, rfl⟩ := List.mem_map.mp hs₂
  obtain ⟨hmem, hlen⟩ := List.mem_filter.mp hs
  have hwfs := hwf s hmem
  cases hp : s.pages with
  | nil => rw [hp] at hwfs; simp [wfPagesFlags] at hwfs
  | cons p ps =>
    rw [shiftStream_pages hp]
    rw [hp] at hwfs hlen
    simp at hlen
    exact (wf_head_next_of_long hwfs (by
      cases ps with
      | nil => simp at hlen
      | cons q qs => simp)).2

theorem maxPagesOf_cons (s : StreamState) (rest : List StreamState) :
    maxPagesOf (s :: rest) = max s.pages.length (maxPagesOf rest) := by
  simp [maxPagesOf]

theorem maxPagesOf_pos (streams : List StreamState)
    (hwf : ∀ s ∈ streams, wfPagesFlags s.pages = true) (hne : streams ≠ []) :
    0 < maxPagesOf streams := by
  cases streams with
  | nil => simp at hne
  | cons s rest =>
    have := wf_pages_pos (hwf s (List.mem_cons_self s rest))
    rw [maxPagesOf_cons]
    omega

theorem maxPagesOf_next (streams : List StreamState)
    (hwf : ∀ s ∈ streams, wfPagesFlags s.pages = true) :
    maxPagesOf (nextStreams streams) = maxPagesOf streams - 1 := by
  rw [nextStreams_eq streams hwf]
  induction streams with
  | nil => rfl
  | cons s rest ih =>
    have hwfs := hwf s (List.mem_cons_self s rest)
    have hpos := wf_pages_pos hwfs
    have ihr := ih fun x hx => hwf x (List.mem_cons_of_mem _ hx)
    rw [maxPagesOf_cons]
    by_cases h1 : 1 < s.pages.length
    · have hd : decide (1 < s.pages.length) = true := by simp [h1]
      rw [List.filter_cons, hd]
      simp only [if_true, List.map_cons, maxPagesOf_cons]
      rw [shiftStream_len hpos, ihr]
      omega
    · have hd : decide (1 < s.pages.length) = false := by simp; omega
      rw [List.filter_cons, hd]
      simp only [Bool.false_eq_true, if_false]
      rw [ihr]
      omega

theorem shiftStream_name {s : StreamState} {p : PageResult} {ps : List PageResult}
    (hp : s.pages = p :: ps) : (shiftStream s).name = s.name := by
  simp [shiftStream, hp]

theorem shiftStream_skip {s : StreamState} {p : PageResult} {ps : List PageResult}
    (hp : s.pages = p :: ps) : (shiftStream s).skip = s.skip + p.pageSize := by
  simp [shiftStream, hp]

theorem pageSizesSum_succ {s : StreamState} {p : PageResult} {ps : List PageResult}
    (hp : s.pages = p :: ps) (r : Nat) :
    pageSizesSum s (r + 1) = p.pageSize + pageSizesSum (shiftStream s) r := by
  simp [pageSizesSum, hp, shiftStream]

theorem pageItems_succ {s : StreamState} {p : PageResult} {ps : List PageResult}
    (hp : s.pages = p :: ps) (r : Nat) :
    pageItems s (r + 1) = pageItems (shiftStream s) r := by
  simp [pageItems, hp, shiftStream]

theorem traceSpec_succ (streams : List StreamState)
    (hwf : ∀ s ∈ streams, wfPagesFlags s.pages = true) (r : Nat) :
    traceSpec streams (r + 1) = traceSpec (nextStreams streams) r := by
  rw [nextStreams_eq streams hwf]
  induction streams with
  | nil => rfl
  | cons s rest ih =>
    have hwfs := hwf s (List.mem_cons_self s rest)
    have hpos := wf_pages_pos hwfs
    have ihr := ih fun x hx => hwf x (List.mem_cons_of_mem _ hx)
    obtain ⟨p, ps, hp⟩ : ∃ p ps, s.pages = p :: ps := by
      cases hq : s.pages with
      | nil => rw [hq] at hpos; simp at hpos
      | cons a b => exact ⟨a, b, rfl⟩
    by_cases hlen : r + 1 < s.pages.length
    · have h1 : 1 < s.pages.length := by omega
      have hlen2 : r < (shiftStream s).pages.length := by
        rw [shiftStream_len hpos]; omega
      simp only [traceSpec, List.filter_cons, List.map_cons] at ihr ⊢
      have hd1 : decide (r + 1 < s.pages.length) = true := by simp [hlen]
      have hd2 : decide (1 < s.pages.length) = true := by simp [h1]
      have hd3 : decide (r < (shiftStream s).pages.length) = true := by simp [hlen2]
      rw [hd1, hd2]
      simp only [if_true, List.filter_cons, hd3, List.map_cons]
      rw [ihr]
      congr 1
      rw [shiftStream_name hp, shiftStream_skip hp, pageSizesSum_succ hp]
      simp [Nat.add_assoc]
    · have hd1 : decide (r + 1 < s.pages.length) = false := by simp; omega
      simp only [traceSpec, List.filter_cons, List.map_cons] at ihr ⊢
      rw [hd1]
      simp only [Bool.false_eq_true, if_false]
      by_cases h1 : 1 < s.pages.length
      · have hd2 : decide (1 < s.pages.length) = true := by simp [h1]
        have hlen2 : ¬ r < (shiftStream s).pages.length := by
          rw [shiftStream_len hpos]; omega
        have hd3 : decide (r < (shiftStream s).pages.length) = false := by
          simp [hlen2]
        rw [hd2]
        simp only [if_true, List.map_cons, List.filter_cons, hd3, Bool.false_eq_true,
          if_false]
        exact ihr
      · have hd2 : decide (1 < s.pages.length) = false := by simp; omega
        rw [hd2]
        simp only [Bool.false_eq_true, if_false]
        exact ihr

theorem itemsSpecRound_succ (streams : List StreamState)
    (hwf : ∀ s ∈ streams, wfPagesFlags s.pages = true) (r : Nat) :
    itemsSpecRound streams (r + 1) = itemsSpecRound (nextStreams streams) r := by
  rw [nextStreams_eq streams hwf]
  induction streams with
  | nil => rfl
  | cons s rest ih =>
    have hwfs := hwf s (List.mem_cons_self s rest)
    have hpos := wf_pages_pos hwfs
    have ihr := ih fun x hx => hwf x (List.mem_cons_of_mem _ hx)
    obtain ⟨p, ps, hp⟩ : ∃ p ps, s.pages = p :: ps := by
      cases hq : s.pages with
      | nil => rw [hq] at hpos; simp at hpos
      | cons a b => exact ⟨a, b, rfl⟩
    by_cases hlen : r + 1 < s.pages.length
    · have h1 : 1 < s.pages.length := by omega
      have hlen2 : r < (shiftStream s).pages.length := by
        rw [shiftStream_len hpos]; omega
      simp only [itemsSpecRound, List.filter_cons, List.map_cons] at ihr ⊢
      have hd1 : decide (r + 1 < s.pages.length) = true := by simp [hlen]
      have hd2 : decide (1 < s.pages.length) = true := by simp [h1]
      have hd3 : decide (r < (shiftStream s).pages.length) = true := by simp [hlen2]
      rw [hd1, hd2]
      simp only [if_true, List.filter_cons, hd3, List.map_cons, List.flatten_cons]
      rw [ihr, pageItems_succ hp]
    · have hd1 : decide (r + 1 < s.pages.length) = false := by simp; omega
      simp only [itemsSpecRound, List.filter_cons, List.map_cons] at ihr ⊢
      rw [hd1]
      simp only [Bool.false_eq_true, if_false]
      by_cases h1 : 1 < s.pages.length
      · have hd2 : decide (1 < s.pages.length) = true := by simp [h1]
        have hlen2 : ¬ r < (shiftStream s).pages.length := by
          rw [shiftStream_len hpos]; omega
        have hd3 : decide (r < (shiftStream s).pages.length) = false := by
          simp [hlen2]
        rw [hd2]
        simp only [if_true, List.map_cons, List.filter_cons, hd3, Bool.false_eq_true,
          if_false]
        exact ihr
      · have hd2 : decide (1 < s.pages.length) = false := by simp; omega
        rw [hd2]
        simp only [Bool.false_eq_true, if_false]
        exact ihr

theorem getEntriesGo_spec :
    ∀ (fuel : Nat) (streams : List StreamState) (r₀ : Nat),
      (∀ s ∈ streams, wfPagesFlags s.pages = true) → streams ≠ [] →
      maxPagesOf streams ≤ fuel →
      getEntriesGo (fun _ => false) fuel r₀ streams =
        (some ((List.range (maxPagesOf streams)).map (itemsSpecRound streams)).flatten,
         (List.range (maxPagesOf streams)).map (traceSpec streams)) := by
  intro fuel
  induction fuel with
  | zero =>
    intro streams r₀ hwf hne hfuel
    have := maxPagesOf_pos streams hwf hne
    omega
  | succ fuel ih =>
    intro streams r₀ hwf hne hfuel
    have hpos := maxPagesOf_pos streams hwf hne
    by_cases hnext : (nextStreams streams).isEmpty = true
    · have hnil : nextStreams streams = [] := List.isEmpty_iff.mp hnext
      have hmn := maxPagesOf_next streams hwf
      rw [hnil] at hmn
      have hz : maxPagesOf ([] : List StreamState) = 0 := rfl
      rw [hz] at hmn
      have hmp1 : maxPagesOf streams = 1 := by omega
      simp only [getEntriesGo, hnext, if_true, Bool.false_eq_true, if_false]
      rw [roundItems_spec streams hwf, roundRequest_spec streams hwf, hmp1]
      simp [List.range_succ]
    · rw [Bool.not_eq_true] at hnext
      have hne2 : nextStreams streams ≠ [] := by
        intro h
        rw [h] at hnext
        simp at hnext
      have hwfn := wf_mem_nextStreams streams hwf
      have hmn := maxPagesOf_next streams hwf
      have hpos2 := maxPagesOf_pos _ hwfn hne2
      have hfuel2 : maxPagesOf (nextStreams streams) ≤ fuel := by omega
      have ihn := ih (nextStreams streams) (r₀ + 1) hwfn hne2 hfuel2
      simp only [getEntriesGo, hnext, Bool.false_eq_true, if_false]
      rw [ihn]
      obtain ⟨k, hk⟩ : ∃ k, maxPagesOf streams = k + 1 := ⟨maxPagesOf streams - 1, by omega⟩
      have hkn : maxPagesOf (nextStreams streams) = k := by omega
      rw [hkn, hk, List.range_succ_eq_map]
      simp only [List.map_cons, List.flatten_cons, List.map_map, Option.map_some]
      rw [roundItems_spec streams hwf, roundRequest_spec streams hwf]
      have hmapI : (List.range k).map (itemsSpecRound (nextStreams streams)) =
          (List.range k).map (itemsSpecRound streams ∘ Nat.succ) := by
        apply List.map_congr_left
        intro r _
        simp only [Function.comp]
        exact (itemsSpecRound_succ streams hwf r).symm
      have hmapT : (List.range k).map (traceSpec (nextStreams streams)) =
          (List.range k).map (traceSpec streams ∘ Nat.succ) := by
        apply List.map_congr_left
        intro r _
        simp only [Function.comp]
        exact (traceSpec_succ streams hwf r).symm
      rw [hmapI, hmapT]
      simp

theorem flatten_append_perm {α β : Type} (l : List α) (f g : α → List β) :
    List.Perm (l.map fun x => f x ++ g x).flatten
      ((l.map f).flatten ++ (l.map g).flatten) := by
  induction l with
  | nil => simp
  | cons a rest ih =>
    simp only [List.map_cons, List.flatten_cons]
    have h1 : List.Perm (f a ++ g a ++ (rest.map fun x => f x ++ g x).flatten)
        (f a ++ g a ++ ((rest.map f).flatten ++ (rest.map g).flatten)) :=
      List.Perm.append_left _ ih
    have h2 : List.Perm (g a ++ ((rest.map f).flatten ++ (rest.map g).flatten))
        ((rest.map f).flatten ++ (g a ++ (rest.map g).flatten)) := by
      have hc : List.Perm (g a ++ (rest.map f).flatten)
          ((rest.map f).flatten ++ g a) := List.perm_append_comm
      have hr := hc.append_right ((rest.map g).flatten)
      simpa [List.append_assoc] using hr
    refine h1.trans ?_
    have h3 := List.Perm.append_left (f a) h2
    simpa [List.append_assoc] using h3

theorem flatten_filter_eq {α β : Type} (p : α → Bool) (g : α → List β) :
    ∀ l : List α, (∀ x ∈ l, p x = false → g x = []) →
      (l.map g).flatten = ((l.filter p).map g).flatten := by
  intro l
  induction l with
  | nil => intro _; rfl
  | cons a rest ih =>
    intro h
    have ihr := ih fun x hx => h x (List.mem_cons_of_mem _ hx)
    simp only [List.map_cons, List.flatten_cons, List.filter_cons]
    by_cases hp : p a = true
    · rw [hp]
      simp only [if_true, List.map_cons, List.flatten_cons]
      rw [ihr]
    · rw [Bool.not_eq_true] at hp
      rw [hp]
      simp only [Bool.false_eq_true, if_false]
      rw [h a (List.mem_cons_self a rest) hp]
      simpa using ihr

theorem streamMajor_decompose (streams : List StreamState)
    (hwf : ∀ s ∈ streams, wfPagesFlags s.pages = true) :
    List.Perm (streamMajor streams)
      (itemsSpecRound streams 0 ++ streamMajor (nextStreams streams)) := by
  have hstep : streamMajor streams =
      (streams.map fun s =>
        pageItems s 0 ++ ((s.pages.drop 1).map PageResult.items).flatten).flatten := by
    unfold streamMajor
    congr 1
    apply List.map_congr_left
    intro s hs
    have hpos := wf_pages_pos (hwf s hs)
    cases hp : s.pages with
    | nil => rw [hp] at hpos; simp at hpos
    | cons p ps => simp [hp, pageItems]
  have hA : ((streams.map fun s => pageItems s 0).flatten) = itemsSpecRound streams 0 := by
    unfold itemsSpecRound
    have hf : streams.filter (fun s => decide (0 < s.pages.length)) = streams :=
      List.filter_eq_self.mpr (fun s hs => by simpa using wf_pages_pos (hwf s hs))
    rw [hf]
  have hB : ((streams.map fun s =>
      ((s.pages.drop 1).map PageResult.items).flatten).flatten) =
      streamMajor (nextStreams streams) := by
    rw [nextStreams_eq streams hwf]
    unfold streamMajor
    rw [List.map_map]
    have hcong : (streams.filter fun s => decide (1 < s.pages.length)).map
        ((fun s => (s.pages.map PageResult.items).flatten) ∘ shiftStream) =
        (streams.filter fun s => decide (1 < s.pages.length)).map
        (fun s => ((s.pages.drop 1).map PageResult.items).flatten) := by
      apply List.map_congr_left
      intro s hs
      obtain ⟨hmem, hlen⟩ := List.mem_filter.mp hs
      simp only [decide_eq_true_eq] at hlen
      have hpos : 0 < s.pages.length := by omega
      cases hp : s.pages with
      | nil => rw [hp] at hpos; simp at hpos
      | cons p ps => simp [Function.comp, shiftStream, hp]
    rw [hcong]
    apply flatten_filter_eq
    intro s hs hfalse
    simp only [decide_eq_false_iff_not, Nat.not_lt] at hfalse
    have hpos := wf_pages_pos (hwf s hs)
    have hlen1 : s.pages.length = 1 := by omega
    cases hp : s.pages with
    | nil => rw [hp] at hpos; simp at hpos
    | cons p ps =>
      rw [hp] at hlen1
      simp at hlen1
      subst hlen1
      simp [hp]
  rw [hstep, ← hA, ← hB]
  exact flatten_append_perm streams _ _

theorem loopItems_perm :
    ∀ (n : Nat) (streams : List StreamState),
      (∀ s ∈ streams, wfPagesFlags s.pages = true) → maxPagesOf streams = n →
      List.Perm ((List.range n).map (itemsSpecRound streams)).flatten
        (streamMajor streams) := by
  intro n
  induction n with
  | zero =>
    intro streams hwf h0
    cases streams with
    | nil => simp [streamMajor]
    | cons s rest =>
      have := maxPagesOf_pos (s :: rest) hwf (by simp)
      omega
  | succ k ih =>
    intro streams hwf hmp
    have hwfn := wf_mem_nextStreams streams hwf
    have hmn := maxPagesOf_next streams hwf
    have hkn : maxPagesOf (nextStreams streams) = k := by omega
    have ihn := ih (nextStreams streams) hwfn hkn
    rw [List.range_succ_eq_map]
    simp only [List.map_cons, List.flatten_cons, List.map_map]
    have hmapI : (List.range k).map (itemsSpecRound streams ∘ Nat.succ) =
        (List.range k).map (itemsSpecRound (nextStreams streams)) := by
      apply List.map_congr_left
      intro r _
      simp only [Function.comp]
      exact itemsSpecRound_succ streams hwf r
    rw [hmapI]
    refine (List.Perm.append_left _ ihn).trans ?_
    exact (streamMajor_decompose streams hwf).symm

/-! ### Claims C4 and C8 -/

/-- Two demo streams: stream `a` has two pages, stream `b` one. -/
def demoStreams : List StreamState :=
  [⟨"aConnection", 0, [⟨["a1", "a2"], 2, true⟩, ⟨["a3"], 2, false⟩]⟩,
   ⟨"bConnection", 0, [⟨["b1"], 1, false⟩]⟩]

/-- C4 (amended): for at least one stream, if stream `i` reports
`hasNextPage = true` on its first `p_i - 1` responses and `false` on
response `p_i` (`wfPagesFlags`), then absent errors the loop issues
exactly `max i p_i` round trips; the combined query of round `r` contains
exactly the streams with more than `r` pages, each with its skip advanced
by the sum of its previously reported page sizes (`traceSpec`); the
returned array is a permutation of the concatenation of all items of all
streams across all pages; and no warning is logged.  (The case of zero
streams is excluded: see the counterexample.) -/
theorem getEntries_interleaved_pagination
    (streams : List StreamState) (fuel : Nat)
    (hwf : ∀ s ∈ streams, wfPagesFlags s.pages = true)
    (hne : streams ≠ [])
    (hfuel : maxPagesOf streams ≤ fuel) :
    (getEntries (fun _ => false) fuel streams).2.1 =
      (List.range (maxPagesOf streams)).map (traceSpec streams) ∧
    (getEntries (fun _ => false) fuel streams).2.1.length = maxPagesOf streams ∧
    List.Perm (getEntries (fun _ => false) fuel streams).1 (streamMajor streams) ∧
    (getEntries (fun _ => false) fuel streams).2.2 = 0 := by
  have hgo := getEntriesGo_spec fuel streams 0 hwf hne hfuel
  unfold getEntries
  rw [hgo]
  refine ⟨rfl, by simp, ?_, rfl⟩
  exact loopItems_perm (maxPagesOf streams) streams hwf rfl

/-- C4 counterexample: with zero streams, `max i p_i = 0` but the
do/while loop still issues one (empty) round trip, so 'exactly
`max i p_i` round trips' fails for `N = 0`. -/
theorem getEntries_round_count_counterexample :
    maxPagesOf ([] : List StreamState) = 0 ∧
    (getEntries (fun _ => false) 5 ([] : List StreamState)).2.1.length = 1 := by
  decide

/-- Witness for C4 on the two demo streams. -/
theorem getEntries_interleaved_pagination_witness :
    (getEntries (fun _ => false) 5 demoStreams).2.1 =
      (List.range (maxPagesOf demoStreams)).map (traceSpec demoStreams) ∧
    (getEntries (fun _ => false) 5 demoStreams).2.1.length = maxPagesOf demoStreams ∧
    List.Perm (getEntries (fun _ => false) 5 demoStreams).1 (streamMajor demoStreams) ∧
    (getEntries (fun _ => false) 5 demoStreams).2.2 = 0 :=
  getEntries_interleaved_pagination demoStreams 5 (by decide) (by decide) (by decide)

theorem getEntriesGo_error :
    ∀ (k fuel r₀ : Nat) (streams : List StreamState) (fail : Nat → Bool),
      (∀ s ∈ streams, wfPagesFlags s.pages = true) → streams ≠ [] →
      k < maxPagesOf streams → fail (r₀ + k) = true →
      (∀ j, j < k → fail (r₀ + j) = false) → k < fuel →
      (getEntriesGo fail fuel r₀ streams).1 = none := by
  intro k
  induction k with
  | zero =>
    intro fuel r₀ streams fail hwf hne hk hfail hbefore hfuel
    obtain ⟨fuel', rfl⟩ : ∃ f, fuel = f + 1 := ⟨fuel - 1, by omega⟩
    rw [Nat.add_zero] at hfail
    simp [getEntriesGo, hfail]
  | succ k ihk =>
    intro fuel r₀ streams fail hwf hne hk hfail hbefore hfuel
    obtain ⟨fuel', rfl⟩ : ∃ f, fuel = f + 1 := ⟨fuel - 1, by omega⟩
    have h0 : fail r₀ = false := by
      have := hbefore 0 (by omega)
      rwa [Nat.add_zero] at this
    have hwfn := wf_mem_nextStreams streams hwf
    have hmn := maxPagesOf_next streams hwf
    have hne2 : nextStreams streams ≠ [] := by
      intro h
      rw [h] at hmn
      have hz : maxPagesOf ([] : List StreamState) = 0 := rfl
      rw [hz] at hmn
      omega
    have hempty : (nextStreams streams).isEmpty = false := by
      have : ¬ (nextStreams streams).isEmpty = true :=
        fun h => hne2 (List.isEmpty_iff.mp h)
      rwa [Bool.not_eq_true] at this
    have hrec := ihk fuel' (r₀ + 1) (nextStreams streams) fail hwfn hne2
      (by omega)
      (by rw [show r₀ + 1 + k = r₀ + (k + 1) by omega]; exact hfail)
      (by
        intro j hj
        rw [show r₀ + 1 + j = r₀ + (j + 1) by omega]
        exact hbefore (j + 1) (by omega))
      (by omega)
    simp [getEntriesGo, h0, hempty, hrec]

/-- C8: if the request of some round throws a transport/protocol error
(here: the first failing round `failAt` is among the rounds the loop
actually reaches), the whole fetch is aborted: exactly one warning is
logged and the returned array is empty — every item merged from earlier
successful rounds is discarded. -/
theorem getEntries_error_aborts
    (streams : List StreamState) (fuel : Nat) (fail : Nat → Bool) (failAt : Nat)
    (hwf : ∀ s ∈ streams, wfPagesFlags s.pages = true)
    (hne : streams ≠ [])
    (hk : failAt < maxPagesOf streams)
    (hfail : fail failAt = true)
    (hbefore : ∀ j, j < failAt → fail j = false)
    (hfuel : failAt < fuel) :
    (getEntries fail fuel streams).1 = [] ∧
    (getEntries fail fuel streams).2.2 = 1 := by
  have h := getEntriesGo_error failAt fuel 0 streams fail hwf hne hk
    (by simpa using hfail) (fun j hj => by simpa using hbefore j hj) hfuel
  unfold getEntries
  cases hgo : getEntriesGo fail fuel 0 streams with
  | mk o reqs =>
    rw [hgo] at h
    cases o with
    | none => exact ⟨rfl, rfl⟩
    | some v => simp at h

/-- Witness for C8: the round-1 request fails on the two demo streams. -/
theorem getEntries_error_aborts_witness :
    (getEntries (fun r => decide (r = 1)) 5 demoStreams).1 = [] ∧
    (getEntries (fun r => decide (r = 1)) 5 demoStreams).2.2 = 1 :=
  getEntries_error_aborts demoStreams 5 (fun r => decide (r = 1)) 1
    (by decide) (by decide) (by decide) (by decide)
    (by intro j hj; interval_cases j; decide) (by decide)

/-! ### The webhook reconciliation loop of `onWebhook`

`HygraphContentSource.onWebhook` re-fetches the notified entry or asset
from the content API and retries while the fetched version is not newer
than the cache, because the content API is not read-after-write
consistent.  The loop is
`do { ...fetch... } while (!gotNewerVersion && ++tries < 10)`, i.e. at
most 10 fetch attempts (indices 0..9); every attempt after the first is
preceded by a 500 ms delay (a real-time effect outside this embedding).
A fetch that returns nothing makes the handler return immediately — no
retry, no warning, no cache update.  After exhausting the attempts without
freshness it logs exactly one warning and proceeds with the last fetched
item (conversion and cache update).  The entry branch and the asset
branch of the source have the same loop, embedded once here; the network
is an oracle mapping the attempt index to the fetch result. -/

/-- One element of `documentInStages`. -/
structure StageEntry where
  stage : String
  updatedAt : String
deriving DecidableEq, Repr

/-- The fields of a fetched entry/asset that the freshness predicate
reads. -/
structure HygraphItem where
  updatedAt : String
  documentInStages : List StageEntry
deriving DecidableEq, Repr

/-- The fields of a cached document/asset that the freshness predicate
reads. -/
structure CachedItem where
  updatedAt : String
deriving DecidableEq, Repr

/-- The `operation` field of a webhook payload. -/
inductive WebhookOperation where
  | create
  | update
  | publish
  | unpublish
  | delete
deriving DecidableEq, Repr

/-- `isNewerVersion` from `onWebhook`, verbatim.  JavaScript compares the
ISO timestamp strings with `<`, lexicographically by code unit; Lean's
`String` order is the same comparison. -/
def isNewerVersion (op : WebhookOperation) (hygraphItem : HygraphItem)
    (cachedItem : Option CachedItem) : Bool :=
  match op with
  | .create => true
  | .update =>
    match cachedItem with
    | none => true
    | some c => decide (c.updatedAt < hygraphItem.updatedAt)
  | .publish =>
    match hygraphItem.documentInStages.find? (fun d => d.stage == "PUBLISHED") with
    | some publishedItem => publishedItem.updatedAt == hygraphItem.updatedAt
    | none => false
  | .unpublish =>
    (hygraphItem.documentInStages.find? (fun d => d.stage == "PUBLISHED")).isNone
  | .delete => true

/-- The retry loop: `tries` is the current attempt index, the second
argument the number of retries still allowed after this one
(`9 - tries` at the top-level call, mirroring `++tries < 10`).  Returns
`none` when a fetch returned nothing (immediate return: no warning, no
cache update), otherwise the item the handler proceeds with, the number of
fetches performed, and the number of warnings logged. -/
def reconcileAux (op : WebhookOperation) (cached : Option CachedItem)
    (fetch : Nat → Option HygraphItem) :
    Nat → Nat → Option (HygraphItem × Nat × Nat)
  | tries, 0 =>
    match fetch tries with
    | none => none
    | some item =>
      if isNewerVersion op item cached then some (item, tries + 1, 0)
      else some (item, tries + 1, 1)
  | tries, r + 1 =>
    match fetch tries with
    | none => none
    | some item =>
      if isNewerVersion op item cached then some (item, tries + 1, 0)
      else reconcileAux op cached fetch (tries + 1) r

/-- The whole reconciliation loop: at most 10 attempts. -/
def reconcile (op : WebhookOperation) (cached : Option CachedItem)
    (fetch : Nat → Option HygraphItem) : Option (HygraphItem × Nat × Nat) :=
  reconcileAux op cached fetch 0 9

theorem reconcileAux_exhaust (op : WebhookOperation) (cached : Option CachedItem)
    (fetch : Nat → Option HygraphItem) (items : Nat → HygraphItem) :
    ∀ (r tries : Nat),
      (∀ j, j ≤ r → fetch (tries + j) = some (items (tries + j))) →
      (∀ j, j ≤ r → isNewerVersion op (items (tries + j)) cached = false) →
      reconcileAux op cached fetch tries r =
        some (items (tries + r), tries + r + 1, 1) := by
  intro r
  induction r with
  | zero =>
    intro tries hf hs
    have h0 := hf 0 (le_refl 0)
    have h1 := hs 0 (le_refl 0)
    rw [Nat.add_zero] at h0 h1 ⊢
    simp [reconcileAux, h0, h1]
  | succ r ih =>
    intro tries hf hs
    have h0 := hf 0 (by omega)
    have h1 := hs 0 (by omega)
    rw [Nat.add_zero] at h0 h1
    have hrec := ih (tries + 1)
      (fun j hj => by
        rw [show tries + 1 + j = tries + (j + 1) by omega]
        exact hf (j + 1) (by omega))
      (fun j hj => by
        rw [show tries + 1 + j = tries + (j + 1) by omega]
        exact hs (j + 1) (by omega))
    rw [show tries + 1 + r = tries + (r + 1) by omega] at hrec
    simp [reconcileAux, h0, h1, hrec]

theorem reconcileAux_absent (op : WebhookOperation) (cached : Option CachedItem)
    (fetch : Nat → Option HygraphItem) :
    ∀ (k r tries : Nat), k ≤ r →
      (∀ j, j < k → ∃ it, fetch (tries + j) = some it ∧
        isNewerVersion op it cached = false) →
      fetch (tries + k) = none →
      reconcileAux op cached fetch tries r = none := by
  intro k
  induction k with
  | zero =>
    intro r tries _ _ habs
    rw [Nat.add_zero] at habs
    cases r with
    | zero => simp [reconcileAux, habs]
    | succ r => simp [reconcileAux, habs]
  | succ k ih =>
    intro r tries hkr hstale habs
    obtain ⟨r', rfl⟩ : ∃ r', r = r' + 1 := ⟨r - 1, by omega⟩
    obtain ⟨it0, hf0, hs0⟩ := hstale 0 (by omega)
    rw [Nat.add_zero] at hf0
    have hrec := ih r' (tries + 1) (by omega)
      (fun j hj => by
        rw [show tries + 1 + j = tries + (j + 1) by omega]
        exact hstale (j + 1) (by omega))
      (by
        rw [show tries + 1 + k = tries + (k + 1) by omega]
        exact habs)
    simp [reconcileAux, hf0, hs0, hrec]

theorem reconcileAux_first_fresh (op : WebhookOperation) (cached : Option CachedItem)
    (fetch : Nat → Option HygraphItem) (item : HygraphItem) :
    ∀ (k r tries : Nat), k ≤ r →
      (∀ j, j < k → ∃ it, fetch (tries + j) = some it ∧
        isNewerVersion op it cached = false) →
      fetch (tries + k) = some item →
      isNewerVersion op item cached = true →
      reconcileAux op cached fetch tries r = some (item, tries + k + 1, 0) := by
  intro k
  induction k with
  | zero =>
    intro r tries _ _ hf hfresh
    rw [Nat.add_zero] at hf ⊢
    cases r with
    | zero => simp [reconcileAux, hf, hfresh]
    | succ r => simp [reconcileAux, hf, hfresh]
  | succ k ih =>
    intro r tries hkr hstale hf hfresh
    obtain ⟨r', rfl⟩ : ∃ r', r = r' + 1 := ⟨r - 1, by omega⟩
    obtain ⟨it0, hf0, hs0⟩ := hstale 0 (by omega)
    rw [Nat.add_zero] at hf0
    have hrec := ih r' (tries + 1) (by omega)
      (fun j hj => by
        rw [show tries + 1 + j = tries + (j + 1) by omega]
        exact hstale (j + 1) (by omega))
      (by
        rw [show tries + 1 + k = tries + (k + 1) by omega]
        exact hf)
      hfresh
    rw [show tries + 1 + k = tries + (k + 1) by omega] at hrec
    simp [reconcileAux, hf0, hs0, hrec]

theorem reconcileAux_accepted_fresh (op : WebhookOperation) (cached : Option CachedItem)
    (fetch : Nat → Option HygraphItem) :
    ∀ (r tries : Nat) (it : HygraphItem) (n : Nat),
      reconcileAux op cached fetch tries r = some (it, n, 0) →
      isNewerVersion op it cached = true := by
  intro r
  induction r with
  | zero =>
    intro tries it n h
    simp only [reconcileAux] at h
    cases hf : fetch tries with
    | none => rw [hf] at h; simp at h
    | some item =>
      rw [hf] at h
      dsimp only [] at h
      by_cases hfresh : isNewerVersion op item cached = true
      · rw [if_pos hfresh] at h
        simp at h
        rw [← h.1]
        exact hfresh
      · rw [if_neg hfresh] at h
        simp at h
  | succ r ih =>
    intro tries it n h
    simp only [reconcileAux] at h
    cases hf : fetch tries with
    | none => rw [hf] at h; simp at h
    | some item =>
      rw [hf] at h
      dsimp only [] at h
      by_cases hfresh : isNewerVersion op item cached = true
      · rw [if_pos hfresh] at h
        simp at h
        rw [← h.1]
        exact hfresh
      · rw [if_neg hfresh] at h
        exact ih (tries + 1) it n h

/-! ### Claims C5, C6, C7 -/

/-- A fetched item whose `documentInStages` has two PUBLISHED entries;
only the second matches the item's own `updatedAt`. -/
def twoPublishedItem : HygraphItem :=
  ⟨"t1", [⟨"PUBLISHED", "t0"⟩, ⟨"PUBLISHED", "t1"⟩]⟩

/-- C5 counterexample: `documentInStages` CONTAINS an entry with stage
PUBLISHED whose `updatedAt` equals the item's own `updatedAt` (first
conjunct), yet the predicate is false, because the code tests only the
FIRST PUBLISHED entry found by `.find`. -/
theorem publish_freshness_contains_counterexample :
    (twoPublishedItem.documentInStages.any fun d =>
      d.stage == "PUBLISHED" && d.updatedAt == twoPublishedItem.updatedAt) = true ∧
    isNewerVersion .publish twoPublishedItem none = false := by
  decide

/-- C5 (amended): for a webhook with operation=publish the freshness
predicate holds for a fetched item iff the first entry with stage
PUBLISHED in its `documentInStages` (the one `.find` returns) has
`updatedAt` equal to the item's own top-level `updatedAt`; an item with
no PUBLISHED entry is judged not yet fresh; and the retry loop stops
early (without warning) only on an item the predicate accepts. -/
theorem publish_freshness_first_entry (item : HygraphItem) (cached : Option CachedItem)
    (fetch : Nat → Option HygraphItem) (acc : HygraphItem) (n : Nat) :
    (isNewerVersion .publish item cached = true ↔
      ∃ p, item.documentInStages.find? (fun d => d.stage == "PUBLISHED") = some p ∧
        p.updatedAt = item.updatedAt) ∧
    ((∀ d ∈ item.documentInStages, d.stage ≠ "PUBLISHED") →
      isNewerVersion .publish item cached = false) ∧
    (reconcile .publish cached fetch = some (acc, n, 0) →
      isNewerVersion .publish acc cached = true) := by
  refine ⟨?_, ?_, ?_⟩
  · unfold isNewerVersion
    cases hfind : item.documentInStages.find? (fun d => d.stage == "PUBLISHED") with
    | none => simp
    | some p => simp
  · intro hall
    unfold isNewerVersion
    have hnone : item.documentInStages.find? (fun d => d.stage == "PUBLISHED") = none := by
      rw [List.find?_eq_none]
      intro d hd
      simp [hall d hd]
    rw [hnone]
  · intro h
    exact reconcileAux_accepted_fresh .publish cached fetch 9 0 acc n h

/-- Witness for C5: an item whose single PUBLISHED entry matches its own
timestamp is fresh. -/
theorem publish_freshness_first_entry_witness :
    isNewerVersion .publish ⟨"t1", [⟨"PUBLISHED", "t1"⟩]⟩ none = true :=
  (publish_freshness_first_entry ⟨"t1", [⟨"PUBLISHED", "t1"⟩]⟩ none
      (fun _ => none) ⟨"t1", []⟩ 0).1.mpr
    ⟨⟨"PUBLISHED", "t1"⟩, by decide, rfl⟩

/-- C6: for operation=update the freshness predicate holds iff no cached
item exists or the cached `updatedAt` is strictly less than the fetched
one; an equal timestamp is never accepted; the loop accepts on the first
attempt at which a strictly newer `updatedAt` appears (with 0 warnings);
and an early acceptance implies a strictly newer timestamp was observed
(never fabricates freshness). -/
theorem update_freshness_strict (item : HygraphItem) (c : CachedItem)
    (fetch : Nat → Option HygraphItem) (k : Nat) (acc : HygraphItem) (n : Nat) :
    (isNewerVersion .update item (some c) = true ↔ c.updatedAt < item.updatedAt) ∧
    (isNewerVersion .update item none = true) ∧
    (c.updatedAt = item.updatedAt → isNewerVersion .update item (some c) = false) ∧
    (k ≤ 9 →
      (∀ j, j < k → ∃ it, fetch j = some it ∧ ¬ c.updatedAt < it.updatedAt) →
      fetch k = some item → c.updatedAt < item.updatedAt →
      reconcile .update (some c) fetch = some (item, k + 1, 0)) ∧
    (reconcile .update (some c) fetch = some (acc, n, 0) →
      c.updatedAt < acc.updatedAt) := by
  refine ⟨?_, rfl, ?_, ?_, ?_⟩
  · unfold isNewerVersion
    simp
  · intro heq
    unfold isNewerVersion
    simp [heq]
  · intro hk hstale hf hlt
    have := reconcileAux_first_fresh .update (some c) fetch item k 9 0 hk
      (fun j hj => by
        obtain ⟨it, hfj, hnl⟩ := hstale j hj
        refine ⟨it, by simpa using hfj, ?_⟩
        unfold isNewerVersion
        simpa using hnl)
      (by simpa using hf)
      (by unfold isNewerVersion; simpa using hlt)
    simpa using this
  · intro h
    have := reconcileAux_accepted_fresh .update (some c) fetch 9 0 acc n h
    unfold isNewerVersion at this
    simpa using this

/-- Witness for C6: the platform returns the stale timestamp on attempt 0
and a strictly newer one on attempt 1; the loop accepts on attempt 1 with
no warning. -/
theorem update_freshness_strict_witness :
    reconcile .update (some ⟨"a"⟩)
      (fun i => if i = 0 then some ⟨"a", []⟩ else some ⟨"b", []⟩) =
      some (⟨"b", []⟩, 2, 0) :=
  (update_freshness_strict ⟨"b", []⟩ ⟨"a"⟩
      (fun i => if i = 0 then some ⟨"a", []⟩ else some ⟨"b", []⟩) 1 ⟨"b", []⟩ 0).2.2.2.1
    (by omega)
    (by
      intro j hj
      interval_cases j
      refine ⟨⟨"a", []⟩, rfl, ?_⟩
      rw [String.lt_iff_toList_lt]
      decide)
    (by decide)
    (by
      rw [String.lt_iff_toList_lt]
      decide)

/-- C7: if all 10 fetch attempts return an item and none is judged fresh,
the loop completes with the LAST fetched item — not nil and not the
cached value — having performed exactly 10 fetches and logged exactly one
warning, and that item is what the handler passes to conversion and the
cache update; whereas if some fetch returns nothing (all earlier attempts
having been stale), the handler returns immediately: no retry, no
warning, no cache update (`none`).  The 500 ms delay before every attempt
after the first is a real-time effect outside this embedding. -/
theorem reconcile_exhaustion_and_absent (op : WebhookOperation)
    (cached : Option CachedItem) (fetch : Nat → Option HygraphItem)
    (items : Nat → HygraphItem) (k : Nat) :
    ((∀ i, i ≤ 9 → fetch i = some (items i)) →
     (∀ i, i ≤ 9 → isNewerVersion op (items i) cached = false) →
     reconcile op cached fetch = some (items 9, 10, 1)) ∧
    (k ≤ 9 →
     (∀ j, j < k → ∃ it, fetch j = some it ∧ isNewerVersion op it cached = false) →
     fetch k = none →
     reconcile op cached fetch = none) := by
  constructor
  · intro hf hs
    have := reconcileAux_exhaust op cached fetch items 9 0
      (fun j hj => by simpa using hf j (by omega))
      (fun j hj => by simpa using hs j (by omega))
    simpa [reconcile] using this
  · intro hk habs hnone
    exact reconcileAux_absent op cached fetch k 9 0 hk
      (fun j hj => by simpa using habs j hj) (by simpa using hnone)

/-- Witness for C7: every attempt returns the same stale item; the loop
returns it after 10 fetches with one warning. -/
theorem reconcile_exhaustion_and_absent_witness :
    reconcile .update (some ⟨"b"⟩) (fun _ => some ⟨"a", []⟩) =
      some (⟨"a", []⟩, 10, 1) :=
  (reconcile_exhaustion_and_absent .update (some ⟨"b"⟩) (fun _ => some ⟨"a", []⟩)
      (fun _ => ⟨"a", []⟩) 0).1 (fun _ _ => rfl)
    (fun _ _ => by
      simp only [isNewerVersion]
      rw [decide_eq_false_iff_not, String.lt_iff_toList_lt]
      decide)

/-! ### Argument serialization (`serializeQueryArgValue`)

GraphQL argument values are plain JavaScript values; strings, arrays,
plain objects and objects tagged with a truthy `enum` property are
serialized by `serializeQueryArgValue` / `serializeQueryArgObject`.
The value tree is encoded as one first-order inductive so that every
function is structurally recursive: `arr` / `obj` carry element / field
chains built from `vcons`/`vnil` and `fcons`/`fnil`.  Other primitives
(numbers, booleans) are left as-is by the source and interpolated with
JavaScript's default formatting; they are represented by `num`.  The
`', '`-joining of the source (`Array.prototype.join` for arrays, and the
lodash reduce guarded by `result.length` for objects — every appended
chunk `key + ': ' + value` is non-empty, so the guard implements exactly
a `', '` join) is written directly on the chains. -/

inductive ArgValue where
  | str (s : String)
  | num (n : Int)
  | enumTag (e : String)
  | arr (elems : ArgValue)
  | obj (fields : ArgValue)
  | vnil
  | vcons (head : ArgValue) (tail : ArgValue)
  | fnil
  | fcons (key : String) (value : ArgValue) (rest : ArgValue)
deriving DecidableEq, Repr

/-- `String.prototype.replace` with a global single-character pattern:
each occurrence of `pat` is replaced by `rep`. -/
def jsReplaceChar (pat : Char) (rep : List Char) : List Char → List Char
  | [] => []
  | c :: cs => (if c = pat then rep else [c]) ++ jsReplaceChar pat rep cs

/-- `serializeQueryArgValue`: strings are double-quoted after the source's
two replacement passes (`"` → `\"`, then newline → `\n`); arrays are
bracketed and `', '`-joined; plain objects are `{ … }` with `', '`-joined
`key: value` entries and no trailing comma; `enum`-tagged values are
emitted bare. -/
def serializeQueryArgValue : ArgValue → String
  | .str s =>
    ⟨'"' :: jsReplaceChar '\n' ['\\', 'n'] (jsReplaceChar '"' ['\\', '"'] s.data) ++ ['"']⟩
  | .num n => toString n
  | .enumTag e => e
  | .arr elems => "[" ++ serializeQueryArgValue elems ++ "]"
  | .obj fields => "\x7b " ++ serializeQueryArgValue fields ++ " \x7d"
  | .vnil => ""
  | .vcons h .vnil => serializeQueryArgValue h
  | .vcons h (.vcons h2 t) =>
    serializeQueryArgValue h ++ ", " ++ serializeQueryArgValue (.vcons h2 t)
  | .vcons h _ => serializeQueryArgValue h
  | .fnil => ""
  | .fcons k v .fnil => k ++ ": " ++ serializeQueryArgValue v
  | .fcons k v (.fcons k2 v2 r) =>
    k ++ ": " ++ serializeQueryArgValue v ++ ", " ++
      serializeQueryArgValue (.fcons k2 v2 r)
  | .fcons k v _ => k ++ ": " ++ serializeQueryArgValue v

/-- Builds an element chain from a list. -/
def elemsChain : List ArgValue → ArgValue
  | [] => .vnil
  | v :: rest => .vcons v (elemsChain rest)

/-- Builds a field chain from a list. -/
def fieldsChain : List (String × ArgValue) → ArgValue
  | [] => .fnil
  | (k, v) :: rest => .fcons k v (fieldsChain rest)

/-- `', '`-join with no leading, trailing or doubled separator. -/
def joinSep (sep : String) : List String → String
  | [] => ""
  | [x] => x
  | x :: y :: rest => x ++ sep ++ joinSep sep (y :: rest)

/-- The per-character escaping the claim describes. -/
def escapeArgChar (c : Char) : List Char :=
  if c = '"' then ['\\', '"'] else if c = '\n' then ['\\', 'n'] else [c]

theorem jsReplaceChar_append (pat : Char) (rep : List Char) :
    ∀ xs ys : List Char,
      jsReplaceChar pat rep (xs ++ ys) =
        jsReplaceChar pat rep xs ++ jsReplaceChar pat rep ys := by
  intro xs ys
  induction xs with
  | nil => rfl
  | cons c rest ih => simp [jsReplaceChar, ih]

theorem jsReplace_two_pass :
    ∀ cs : List Char,
      jsReplaceChar '\n' ['\\', 'n'] (jsReplaceChar '"' ['\\', '"'] cs) =
        (cs.map escapeArgChar).flatten := by
  intro cs
  induction cs with
  | nil => rfl
  | cons c rest ih =>
    by_cases h1 : c = '"'
    · subst h1
      simp [jsReplaceChar, jsReplaceChar_append, escapeArgChar, ih]
    · by_cases h2 : c = '\n'
      · subst h2
        simp [jsReplaceChar, escapeArgChar, ih]
      · simp [jsReplaceChar, escapeArgChar, h1, h2, ih]

theorem serialize_elemsChain :
    ∀ l : List ArgValue,
      serializeQueryArgValue (elemsChain l) =
        joinSep ", " (l.map serializeQueryArgValue) := by
  intro l
  induction l with
  | nil => rfl
  | cons v rest ih =>
    cases rest with
    | nil => rfl
    | cons w r2 =>
      simp only [elemsChain, serializeQueryArgValue, List.map_cons, joinSep]
      rw [show elemsChain (w :: r2) = ArgValue.vcons w (elemsChain r2) from rfl] at ih
      simp only [List.map_cons] at ih
      rw [ih]

theorem serialize_fieldsChain :
    ∀ l : List (String × ArgValue),
      serializeQueryArgValue (fieldsChain l) =
        joinSep ", " (l.map fun kv => kv.1 ++ ": " ++ serializeQueryArgValue kv.2) := by
  intro l
  induction l with
  | nil => rfl
  | cons kv rest ih =>
    obtain ⟨k, v⟩ := kv
    cases rest with
    | nil => rfl
    | cons kw r2 =>
      obtain ⟨k2, v2⟩ := kw
      simp only [fieldsChain, serializeQueryArgValue, List.map_cons, joinSep]
      rw [show fieldsChain ((k2, v2) :: r2) = ArgValue.fcons k2 v2 (fieldsChain r2)
          from rfl] at ih
      simp only [List.map_cons] at ih
      rw [ih]

/-- C9: argument serialization by kind.  A string is emitted in double
quotes with every internal `"` escaped to `\"` and every newline to `\n`
(first conjunct, per character; second conjunct, the claim's concrete
example).  An array is its elements' encodings joined with `', '` inside
square brackets; a plain object is `{ k: v, ... }` with entries joined by
`', '` and no trailing comma; an `enum`-tagged value is the bare enum
text, unquoted. -/
theorem serializeQueryArgValue_by_kind :
    (∀ s : String, (serializeQueryArgValue (.str s)).data =
      '"' :: (s.data.map escapeArgChar).flatten ++ ['"']) ∧
    (serializeQueryArgValue (.str "a\"b\nc") = "\"a\\\"b\\nc\"") ∧
    (∀ l : List ArgValue,
      serializeQueryArgValue (.arr (elemsChain l)) =
        "[" ++ joinSep ", " (l.map serializeQueryArgValue) ++ "]") ∧
    (∀ l : List (String × ArgValue),
      serializeQueryArgValue (.obj (fieldsChain l)) =
        "\x7b " ++ joinSep ", "
          (l.map fun kv => kv.1 ++ ": " ++ serializeQueryArgValue kv.2) ++ " \x7d") ∧
    (∀ e : String, serializeQueryArgValue (.enumTag e) = e) := by
  refine ⟨?_, by decide, ?_, ?_, fun e => rfl⟩
  · intro s
    simp [serializeQueryArgValue, jsReplace_two_pass]
  · intro l
    rw [show serializeQueryArgValue (ArgValue.arr (elemsChain l)) =
        "[" ++ serializeQueryArgValue (elemsChain l) ++ "]" from rfl]
    rw [serialize_elemsChain]
  · intro l
    rw [show serializeQueryArgValue (ArgValue.obj (fieldsChain l)) =
        "\x7b " ++ serializeQueryArgValue (fieldsChain l) ++ " \x7d" from rfl]
    rw [serialize_fieldsChain]

/-! ### Alias stripping after fetch (`removeAliasFieldNames`)

`removeAliasFieldNames` deep-maps a fetched value tree (the external
`deepMap` helper with `iteratePrimitives: false` applies the iteratee to
every object/array node, pre-order, and recurses into the result's
values).  The iteratee: for a plain object with a truthy `__typename`,
every key is passed through `key.replace(/^__<typename>_alias__/, '')`,
which strips one leading occurrence of the prefix if present; other
values are untouched.  JSON trees are encoded as one first-order
inductive (`vcons`/`vnil` array chains, `fcons`/`fnil` field chains).
A `__typename` that is a non-string (never produced by the GraphQL API)
or the empty string (falsy in JavaScript) does not trigger stripping. -/

inductive JValue where
  | prim (s : String)
  | arr (items : JValue)
  | obj (fields : JValue)
  | vnil
  | vcons (head : JValue) (tail : JValue)
  | fnil
  | fcons (key : String) (value : JValue) (rest : JValue)
deriving DecidableEq, Repr

/-- Strips `pre` from the front of a character list: `some` of the
remainder when `pre` is a prefix, else `none`. -/
def stripLeadCL : List Char → List Char → Option (List Char)
  | [], s => some s
  | _ :: _, [] => none
  | p :: ps, c :: cs => if p = c then stripLeadCL ps cs else none

/-- `s.replace(new RegExp('^' + pre), '')`: removes one leading occurrence
of `pre` when present, otherwise returns `s` unchanged. -/
def jsStripLead (pre s : String) : String :=
  match stripLeadCL pre.data s.data with
  | some r => ⟨r⟩
  | none => s

/-- The prefix `__<typename>_alias__` built by the stripping regexp. -/
def aliasHeader (typename : String) : String := "__" ++ typename ++ "_alias__"

/-- Reads the `__typename` property of a field chain (object keys are
unique in a decoded GraphQL response; the first occurrence is the
property).  The empty string is falsy in JavaScript and counts as
absent. -/
def lookupTypename : JValue → Option String
  | .fcons k v rest =>
    if k = "__typename" then
      match v with
      | .prim s => if s = "" then none else some s
      | _ => none
    else lookupTypename rest
  | _ => none

/-- The deep map: the first argument is `some t` while walking the field
chain of an object whose `__typename` is `t` (those keys are stripped),
`none` elsewhere. -/
def removeAliasGo : Option String → JValue → JValue
  | _, .prim s => .prim s
  | _, .arr items => .arr (removeAliasGo none items)
  | _, .obj fs => .obj (removeAliasGo (lookupTypename fs) fs)
  | _, .vnil => .vnil
  | _, .vcons h t => .vcons (removeAliasGo none h) (removeAliasGo none t)
  | _, .fnil => .fnil
  | ctx, .fcons k v rest =>
    .fcons
      (match ctx with
       | some t => jsStripLead (aliasHeader t) k
       | none => k)
      (removeAliasGo none v) (removeAliasGo ctx rest)

/-- `removeAliasFieldNames` as applied to each fetched entry. -/
def removeAliasFieldNames (entry : JValue) : JValue := removeAliasGo none entry

/-- The keys of a field chain, in order. -/
def fieldKeys : JValue → List String
  | .fcons k _ rest => k :: fieldKeys rest
  | _ => []

theorem stripLeadCL_append : ∀ p s : List Char, stripLeadCL p (p ++ s) = some s := by
  intro p s
  induction p with
  | nil => rfl
  | cons c rest ih => simp [stripLeadCL, ih]

theorem stripLeadCL_sep_none (w rest : List Char) :
    ∀ t u : List Char, '_' ∉ t → '_' ∉ u → t ≠ u →
      stripLeadCL (t ++ '_' :: w) (u ++ '_' :: w ++ rest) = none := by
  intro t
  induction t with
  | nil =>
    intro u _ hu hne
    cases u with
    | nil => exact absurd rfl hne
    | cons c cs =>
      have hc : c ≠ '_' := fun h => hu (h ▸ List.mem_cons_self c cs)
      have hcc : ¬ ('_' = c) := fun h => hc (Eq.symm h)
      simp [stripLeadCL, hcc]
  | cons c cs ih =>
    intro u ht hu hne
    have hc : c ≠ '_' := fun h => ht (h ▸ List.mem_cons_self c cs)
    cases u with
    | nil => simp [stripLeadCL, hc]
    | cons d ds =>
      by_cases hcd : c = d
      · subst hcd
        have hne2 : cs ≠ ds := fun h => hne (by rw [h])
        have ht2 : '_' ∉ cs := fun h => ht (List.mem_cons_of_mem _ h)
        have hu2 : '_' ∉ ds := fun h => hu (List.mem_cons_of_mem _ h)
        simpa [stripLeadCL] using ih ds ht2 hu2 hne2
      · simp [stripLeadCL, hcd]

theorem aliasForFieldName_eq_header (fieldName typename : String) :
    aliasForFieldName fieldName typename = aliasHeader typename ++ fieldName := by
  simp [aliasForFieldName, aliasHeader, String.append_assoc]

theorem fieldKeys_removeAliasGo_none :
    ∀ fs : JValue, fieldKeys (removeAliasGo none fs) = fieldKeys fs := by
  intro fs
  induction fs with
  | fcons k v rest ihv ihr => simp [removeAliasGo, fieldKeys, ihr]
  | _ => simp [removeAliasGo, fieldKeys]

theorem fieldKeys_removeAliasGo_some (t : String) :
    ∀ fs : JValue,
      fieldKeys (removeAliasGo (some t) fs) =
        (fieldKeys fs).map (jsStripLead (aliasHeader t)) := by
  intro fs
  induction fs with
  | fcons k v rest ihv ihr => simp [removeAliasGo, fieldKeys, ihr]
  | _ => simp [removeAliasGo, fieldKeys]

theorem strDataAppend (a b : String) : (a ++ b).data = a.data ++ b.data := rfl

theorem aliasHeader_data (T : String) :
    (aliasHeader T).data = '_' :: '_' :: (T.data ++ '_' :: "alias__".data) := by
  show (("__" ++ T) ++ "_alias__").data = _
  rw [strDataAppend, strDataAppend]
  have h2 : "__".data = ['_', '_'] := rfl
  have h3 : "_alias__".data = '_' :: "alias__".data := rfl
  rw [h2, h3]
  simp [List.append_assoc]

/-- C3: alias application and alias stripping round-trip.  First
conjunct: stripping with the runtime type `T` maps a key aliased with
`aliasForFieldName fieldName T` back to `fieldName`.  Second conjunct: a
key carrying a different model's alias prefix (`U ≠ T`; model API names
contain no underscore) is left unchanged.  Third conjunct: in an object
whose `__typename` is `T`, every key is passed through exactly
`replace(/^__T_alias__/, '')`.  Fourth conjunct: an object without a
`__typename` keeps all of its keys unchanged. -/
theorem removeAliasFieldNames_roundtrip
    (T U fieldName : String) (fs : JValue)
    (hTU : T ≠ U) (hT : '_' ∉ T.data) (hU : '_' ∉ U.data) :
    jsStripLead (aliasHeader T) (aliasForFieldName fieldName T) = fieldName ∧
    jsStripLead (aliasHeader T) (aliasForFieldName fieldName U) =
      aliasForFieldName fieldName U ∧
    (lookupTypename fs = some T →
      removeAliasFieldNames (.obj fs) = .obj (removeAliasGo (some T) fs) ∧
      fieldKeys (removeAliasGo (some T) fs) =
        (fieldKeys fs).map (jsStripLead (aliasHeader T))) ∧
    (lookupTypename fs = none →
      removeAliasFieldNames (.obj fs) = .obj (removeAliasGo none fs) ∧
      fieldKeys (removeAliasGo none fs) = fieldKeys fs) := by
  have hdTU : T.data ≠ U.data := by
    intro h
    apply hTU
    cases T
    cases U
    simp_all
  refine ⟨?_, ?_, ?_, ?_⟩
  · rw [aliasForFieldName_eq_header]
    unfold jsStripLead
    rw [strDataAppend, stripLeadCL_append]
  · have hnone : stripLeadCL (aliasHeader T).data
        (aliasForFieldName fieldName U).data = none := by
      rw [aliasForFieldName_eq_header, strDataAppend, aliasHeader_data, aliasHeader_data]
      have hsep := stripLeadCL_sep_none "alias__".data fieldName.data
        T.data U.data hT hU hdTU
      simp [stripLeadCL]
      simpa [List.append_assoc] using hsep
    unfold jsStripLead
    rw [hnone]
  · intro hlook
    exact ⟨by simp [removeAliasFieldNames, removeAliasGo, hlook],
      fieldKeys_removeAliasGo_some T fs⟩
  · intro hlook
    exact ⟨by simp [removeAliasFieldNames, removeAliasGo, hlook],
      fieldKeys_removeAliasGo_none fs⟩

/-- Witness for C3 with two concrete model names. -/
theorem removeAliasFieldNames_roundtrip_witness :
    jsStripLead (aliasHeader "Author") (aliasForFieldName "title" "Author") = "title" ∧
    jsStripLead (aliasHeader "Author") (aliasForFieldName "title" "Post") =
      aliasForFieldName "title" "Post" := by
  have h := removeAliasFieldNames_roundtrip "Author" "Post" "title" .fnil
    (by decide) (by decide) (by decide)
  exact ⟨h.1, h.2.1⟩
